import Mathlib

/-!
# Verification of the tlsprint identification engine

Shallow embedding of `src/tlsprint/identify.py` and `src/tlsprint/benchmark.py`.

Conventions of the embedding:
* tokens are strings, a node is identified by its path (the ordered token
  sequence from the root), matching the source where nodes are token tuples;
* the model tree is a flat insertion-ordered association list from path to the
  node's `models` attribute, mirroring the networkx graph keyed by token tuples;
* Python numbers are idealized as exact rationals (and reals where `math.log`
  appears); Python exceptions are modelled with `Except` / explicit result
  constructors;
* the `ModelTree` class itself (`prune_models`, `condense`, `subtree`,
  `leaves`, `models`) is not part of the given sources (only its callers are),
  so those operations are modelled from the specification, as marked on each
  definition.
-/

/-- Python exceptions that the identification code can raise. -/
inductive PyErr where
  /-- `ZeroDivisionError`, raised by `x / total` when `total` is zero. -/
  | zeroDivision
  /-- `KeyError`, raised by indexing a networkx graph with a missing node. -/
  | keyError
  /-- `IndexError`, raised by `list(...)[0]` on an empty list. -/
  | indexError
  /-- `ValueError`, raised by `max()` on an empty sequence. -/
  | valueError
  /-- `ValueError: math domain error`, raised by `math.log` on a
  non-positive argument. -/
  | mathDomain
deriving DecidableEq, Repr

/-- A protocol message token (input or response), an opaque string. -/
abbrev Token := String

/-- A tree node is identified by its path: the alternating sequence of input
and response tokens from the root. -/
abbrev TreePath := List Token

/-- An implementation label: a (name, version) pair. -/
abbrev Impl := String × String

/-- A weight function maps a model's implementation set to a scalar. -/
abbrev WeightFn := List Impl → ℚ

/-- Function `model_weight_equal` from identify.py: constant weight 1. -/
def model_weight_equal : WeightFn := fun _ => 1

/-- Function `model_weight_count` from identify.py: the number of implementations. -/
def model_weight_count : WeightFn := fun implementations => implementations.length

/-- The model tree: a flat, insertion-ordered mapping from a node's path to
the node's `models` attribute, together with the immutable model-to-
implementations mapping.  Modelled from the spec: the tree class is not among
the given source files; the spec prescribes a "flat mapping from path to node
record" whose nodes carry a `models` set, plus an immutable `model_mapping`. -/
structure ModelTree where
  nodes : List (TreePath × Finset ℕ)
  model_mapping : ℕ → List Impl

/-- The list of node paths, in insertion order. -/
def ModelTree.keys (t : ModelTree) : List TreePath := t.nodes.map Prod.fst

/-- Python `len(tree)`: the number of nodes. -/
def ModelTree.size (t : ModelTree) : ℕ := t.nodes.length

/-- Path `q` is a child path of `p`: it extends `p` by exactly one token. -/
def isChildPath (p q : TreePath) : Bool := decide (q ≠ [] ∧ q.dropLast = p)

/-- Python `list(tree[p])`: the successor nodes of `p`, in insertion order. -/
def ModelTree.children (t : ModelTree) (p : TreePath) : List TreePath :=
  t.keys.filter (fun q => isChildPath p q)

/-- A node with no out-edges. -/
def ModelTree.isLeaf (t : ModelTree) (p : TreePath) : Bool :=
  t.children p = []

/-- Property `tree.leaves`: all current leaf nodes, in insertion order.  Modelled from
the spec: "`leaves()` → lazy sequence of all current leaf nodes". -/
def ModelTree.leaves (t : ModelTree) : List TreePath :=
  t.keys.filter (fun p => t.isLeaf p)

/-- Association-list lookup of a node's `models` attribute. -/
def lookupModels : List (TreePath × Finset ℕ) → TreePath → Finset ℕ
  | [], _ => ∅
  | pm :: rest, p => if pm.1 = p then pm.2 else lookupModels rest p

/-- Python `tree.nodes[p]["models"]`: the stored candidate set of node `p`. -/
def ModelTree.nodeModels (t : ModelTree) (p : TreePath) : Finset ℕ :=
  lookupModels t.nodes p

/-- Method `tree.subtree(p)`: the restriction of the tree to `p` and its
descendants.  Modelled from the spec: "`subtree(node)` is a read-only view
restricted to the node and its descendants". -/
def ModelTree.subtree (t : ModelTree) (p : TreePath) : ModelTree :=
  ⟨t.nodes.filter (fun pm => decide (p <+: pm.1)), t.model_mapping⟩

/-- Property `tree.models`: the candidate models of the whole tree.  Modelled from the
spec: "`models(node)` = union of `models(leaf)` over leaves reachable from
`node`"; for the whole tree this is the union over all leaves. -/
def ModelTree.models (t : ModelTree) : Finset ℕ :=
  t.leaves.foldr (fun p acc => t.nodeModels p ∪ acc) ∅

/-- Function `_tree_weight` from identify.py: the sum of the weight of every model in
the tree. -/
def tree_weight (t : ModelTree) (wf : WeightFn) : ℚ :=
  t.models.sum (fun m => wf (t.model_mapping m))

/-- Method `prune_models` applied as in identify.py.  Modelled from the spec:
"removes all given models from every node's candidate set tree-wide; deletes
empty subtrees". -/
def ModelTree.prune_models (t : ModelTree) (removed : Finset ℕ) : ModelTree :=
  ⟨(t.nodes.map (fun pm => (pm.1, pm.2 \ removed))).filter (fun pm => decide (pm.2 ≠ ∅)),
   t.model_mapping⟩

/-- A node is removed by one condensation pass.  Modelled from the spec:
condensation collapses nodes that "no longer contribute a meaningful
decision": a leaf at an input position (odd depth) awaits no response and is
removed; a response leaf that is its parent's only child witnesses an input
that no longer distinguishes anything and is removed; a tree reduced to a
single leaf (the bare root) is the terminal "fully identified" state,
"represented as an empty tree signaling success". -/
def condensibleNode (t : ModelTree) (p : TreePath) : Bool :=
  t.isLeaf p &&
    (decide (p = []) || p.length % 2 == 1 || (t.children p.dropLast).length == 1)

/-- One condensation pass: delete every currently condensible node. -/
def condenseStep (t : ModelTree) : ModelTree :=
  ⟨t.nodes.filter (fun pm => !condensibleNode t pm.1), t.model_mapping⟩

/-- Iterate condensation passes to a fixpoint; the fuel bounds the number of
passes and `t.size` passes always suffice. -/
def condenseAux : ℕ → ModelTree → ModelTree
  | 0, t => t
  | n + 1, t =>
    let t' := condenseStep t
    if t'.size = t.size then t else condenseAux n t'

/-- Method `tree.condense()`.  Modelled from the spec: "chains are collapsed until
every surviving non-leaf node [provides a real decision] or the tree has
exactly one leaf remaining (the terminal 'fully identified' state,
represented as an empty tree signaling success)". -/
def ModelTree.condense (t : ModelTree) : ModelTree :=
  condenseAux t.size t

/-- The prune-then-condense step performed by `identify` once a leaf has been
reached (identify.py lines 342-354): prune every model outside the leaf's
candidate set, then condense. -/
def identifyRoundTree (t : ModelTree) (leaf_node : TreePath) : ModelTree :=
  (t.prune_models (t.models \ t.nodeModels leaf_node)).condense

/-- An input selector: `select(tree, current_node, weight_fn)`, returning the
chosen input child node or raising. -/
abbrev Selector := ModelTree → TreePath → WeightFn → Except PyErr TreePath

/-- Function `always_first_selector` from identify.py: `list(tree[current_node])[0]`. -/
def always_first_selector : Selector := fun tree current _ =>
  if current ∈ tree.keys then
    match tree.children current with
    | [] => .error .indexError
    | c :: _ => .ok c
  else .error .keyError

/-- The response-branch weights of one candidate input node: the weight of
each output child's subtree (identify.py lines 83-87 and 123-127). -/
def branch_weights (tree : ModelTree) (wf : WeightFn) (input_node : TreePath) : List ℚ :=
  (tree.children input_node).map (fun o => tree_weight (tree.subtree o) wf)

/-- The Gini impurity of one input edge, `1 - sum((x / total) ** 2)`; Python
raises `ZeroDivisionError` as soon as one division by a zero total occurs. -/
def gini_impurity_of (total : ℚ) (ws : List ℚ) : Except PyErr ℚ :=
  if total = 0 ∧ ws ≠ [] then .error .zeroDivision
  else .ok (1 - (ws.map (fun x => (x / total) ^ 2)).sum)

/-- The `impurities` table of `gini_selector`: each candidate input node of
`current` paired with its Gini impurity, in insertion order. -/
def gini_impurities (tree : ModelTree) (current : TreePath) (wf : WeightFn) :
    Except PyErr (List (TreePath × ℚ)) :=
  let total := tree_weight (tree.subtree current) wf
  (tree.children current).mapM
    (fun i => (gini_impurity_of total (branch_weights tree wf i)).map (fun v => (i, v)))

/-- First element minimizing `f`, like Python `min(..., key=f)` which keeps
the earliest minimum. -/
def argminFirst {α : Type} (f : α → ℕ) : α → List α → α
  | best, [] => best
  | best, x :: xs => if f x < f best then argminFirst f x xs else argminFirst f best xs

/-- Function `gini_selector` from identify.py: pick the input edge of maximal Gini
impurity; on ties, the first edge whose subtree has the fewest nodes. -/
def gini_selector : Selector := fun tree current wf =>
  if current ∈ tree.keys then
    match gini_impurities tree current wf with
    | .error e => .error e
    | .ok imps =>
      match (imps.map Prod.snd).max? with
      | none => .error .valueError
      | some maximum_impurity =>
        match (imps.filter (fun pv => pv.2 = maximum_impurity)).map Prod.fst with
        | [] => .error .valueError
        | [c] => .ok c
        | c1 :: c2 :: rest =>
          .ok (argminFirst (fun p => (tree.subtree p).size) c1 (c2 :: rest))
  else .error .keyError

/-- The entropy metric of one input edge, `-1 * sum((x/total) * log(x/total))`
(identify.py lines 128-130); Python raises `ZeroDivisionError` on a zero
total and `math.log` raises a math domain error on a non-positive ratio. -/
noncomputable def entropy_metric_of (total : ℚ) (ws : List ℚ) : Except PyErr ℝ :=
  if total = 0 ∧ ws ≠ [] then .error .zeroDivision
  else if ∃ x ∈ ws, x / total ≤ 0 then .error .mathDomain
  else .ok (-1 * (ws.map
    (fun x => ((x / total : ℚ) : ℝ) * Real.log ((x / total : ℚ) : ℝ))).sum)

/-- First element maximizing the real-valued metric, like Python
`max(..., key=...)` which keeps the earliest maximum. -/
noncomputable def argmaxFirstR : (TreePath × ℝ) → List (TreePath × ℝ) → TreePath × ℝ
  | best, [] => best
  | best, x :: xs => if x.2 > best.2 then argmaxFirstR x xs else argmaxFirstR best xs

/-- The `input_info` table of `entropy_selector`: each candidate input node
paired with its entropy metric, in insertion order. -/
noncomputable def entropy_metrics (tree : ModelTree) (current : TreePath) (wf : WeightFn) :
    Except PyErr (List (TreePath × ℝ)) :=
  let total := tree_weight (tree.subtree current) wf
  (tree.children current).mapM
    (fun i => (entropy_metric_of total (branch_weights tree wf i)).map (fun v => (i, v)))

/-- Function `entropy_selector` from identify.py: pick the first input edge of maximal
entropy metric. -/
noncomputable def entropy_selector : Selector := fun tree current wf =>
  if current ∈ tree.keys then
    match entropy_metrics tree current wf with
    | .error e => .error e
    | .ok infos =>
      match infos with
      | [] => .error .valueError
      | x :: xs => .ok (argmaxFirstR x xs).1
  else .error .keyError

/-- One recorded connector interaction, instrumenting the identification run:
each `send` (with the response it returned), each `reset`, and each `close`. -/
inductive ConnEvent where
  | send (message : Token) (response : Option Token)
  | reset
  | close
deriving DecidableEq, Repr

/-- The connector capability set consumed by the identification loop:
`send(token) -> token` and `reset()`.  `send` receives the current tree
because the benchmark connector holds a reference to the very tree object
that `identify` prunes in place. -/
structure ConnectorOps (σ : Type) where
  send : ModelTree → σ → Token → Option Token × σ
  reset : σ → σ

/-- The mutable state of `BenchmarkConnector`: the message transcript and the
internal path cursor. -/
structure BenchState where
  messages : List Token
  current_node : TreePath
deriving DecidableEq, Repr

/-- Method `BenchmarkConnector.send` from identify.py: record the input, advance the
cursor through it, and return the token of the first response branch whose
subtree still contains the target model; with no such branch the Python
method falls through and returns `None`. -/
def BenchmarkConnector.send (target : ℕ) (tree : ModelTree) (st : BenchState)
    (message : Token) : Option Token × BenchState :=
  let msgs := st.messages ++ [message]
  let cur := st.current_node ++ [message]
  match (tree.children cur).find?
      (fun neighbor => decide (target ∈ (tree.subtree neighbor).models)) with
  | some neighbor =>
    let output := neighbor.getLastD ""
    (some output, ⟨msgs ++ [output], cur ++ [output]⟩)
  | none => (none, ⟨msgs, cur⟩)

/-- Method `BenchmarkConnector.reset` from identify.py: append the sentinel pair
`["RESET", ""]` to the transcript and clear the cursor. -/
def BenchmarkConnector.reset (st : BenchState) : BenchState :=
  ⟨st.messages ++ ["RESET", ""], []⟩

/-- The connector operations of a `BenchmarkConnector(target, tree)`. -/
def benchOps (target : ℕ) : ConnectorOps BenchState :=
  ⟨BenchmarkConnector.send target, BenchmarkConnector.reset⟩

/-- The outcome of one descent (`AbastractConnector.descent`). -/
inductive DescentResult where
  /-- The computed response node exists and is a leaf: the descent returns it. -/
  | leaf (p : TreePath)
  /-- The computed response path is absent from the tree (the `KeyError`
  branch, also reached when `send` returned `None`): the descent returns
  `None`. -/
  | noPath
  /-- An exception escaped (from the selector); it propagates uncaught. -/
  | failure (e : PyErr)
  /-- Artifact of the fuelled embedding; never reached with enough fuel. -/
  | fuelOut
deriving DecidableEq, Repr

/-- The loop body of `AbastractConnector.descent` (identify.py lines
154-183): ask the selector for the node to send, send its last token, extend
the path with the response, fail if that path is not a node, stop if it is a
leaf, recurse otherwise.  `lvs` is the leaf list computed once at entry. -/
def descentAux {σ : Type} (ops : ConnectorOps σ) (tree : ModelTree) (sel : Selector)
    (wf : WeightFn) (lvs : List TreePath) :
    ℕ → TreePath → σ → List ConnEvent → DescentResult × σ × List ConnEvent
  | 0, _, st, evs => (.fuelOut, st, evs)
  | n + 1, current_node, st, evs =>
    match sel tree current_node wf with
    | .error e => (.failure e, st, evs)
    | .ok send_node =>
      let (response, st2) := ops.send tree st (send_node.getLastD "")
      let evs2 := evs ++ [.send (send_node.getLastD "") response]
      match response with
      | none => (.noPath, st2, evs2)
      | some r =>
        let response_node := send_node ++ [r]
        if response_node ∈ tree.keys then
          if response_node ∈ lvs then (.leaf response_node, st2, evs2)
          else descentAux ops tree sel wf lvs n response_node st2 evs2
        else (.noPath, st2, evs2)

/-- Method `AbastractConnector.descent`: start at the root with the current leaf
list; the fuel `tree.size + 1` suffices because the path strictly lengthens
within one descent. -/
def descent {σ : Type} (ops : ConnectorOps σ) (tree : ModelTree) (sel : Selector)
    (wf : WeightFn) (st : σ) (evs : List ConnEvent) :
    DescentResult × σ × List ConnEvent :=
  descentAux ops tree sel wf tree.leaves (tree.size + 1) [] st evs

/-- The result of `identify`. -/
inductive IdentifyOutcome where
  /-- The descent found no matching path: `identify` returns `None`. -/
  | noMatch
  /-- Termination with the last leaf's candidate set (non-benchmark mode). -/
  | success (models : Finset ℕ)
  /-- Termination in benchmark mode: the candidate set and the transcript. -/
  | successBench (models : Finset ℕ) (messages : List Token)
  /-- An exception escaped `identify` uncaught. -/
  | failure (e : PyErr)
  /-- Artifact of the fuelled embedding of the unbounded `while` loop. -/
  | outOfFuel
deriving DecidableEq

/-- The result of `identify` together with the recorded connector events. -/
structure IdentifyResult where
  outcome : IdentifyOutcome
  events : List ConnEvent
deriving DecidableEq

/-- The `while identifing` loop of `identify` (identify.py lines 318-375):
descend to a leaf (closing the connector and returning `None` if the descent
fails), prune the tree down to the leaf's candidate set, condense, terminate
with the leaf's candidates if the tree became empty (additionally returning
the transcript in benchmark mode), otherwise reset the connector and loop. -/
def identifyAux {σ : Type} (ops : ConnectorOps σ) (sel : Selector) (wf : WeightFn)
    (benchmark : Bool) (messagesOf : σ → List Token) :
    ℕ → ModelTree → σ → List ConnEvent → IdentifyResult
  | 0, _, _, evs => ⟨.outOfFuel, evs⟩
  | fuel + 1, tree, st, evs =>
    match descent ops tree sel wf st evs with
    | (.fuelOut, _, evs2) => ⟨.outOfFuel, evs2⟩
    | (.failure e, _, evs2) => ⟨.failure e, evs2⟩
    | (.noPath, _, evs2) => ⟨.noMatch, evs2 ++ [.close]⟩
    | (.leaf leaf_node, st2, evs2) =>
      let leaf_models := tree.nodeModels leaf_node
      let tree2 := identifyRoundTree tree leaf_node
      if tree2.size = 0 then
        ⟨if benchmark then .successBench leaf_models (messagesOf st2)
          else .success leaf_models, evs2 ++ [.close]⟩
      else
        identifyAux ops sel wf benchmark messagesOf fuel tree2 (ops.reset st2)
          (evs2 ++ [.reset])

/-- Function `identify` over an arbitrary connector, from a fresh connector state. -/
def identify {σ : Type} (ops : ConnectorOps σ) (messagesOf : σ → List Token)
    (tree : ModelTree) (sel : Selector) (wf : WeightFn) (benchmark : Bool)
    (st0 : σ) (fuel : ℕ) : IdentifyResult :=
  identifyAux ops sel wf benchmark messagesOf fuel tree st0 []

/-- Call `identify(tree, target, benchmark=True, ...)`: the benchmark-mode run,
which constructs a fresh `BenchmarkConnector(target, tree)`. -/
def identify_benchmark (tree : ModelTree) (target : ℕ) (sel : Selector)
    (wf : WeightFn) (fuel : ℕ) : IdentifyResult :=
  identify (benchOps target) BenchState.messages tree sel wf true ⟨[], []⟩ fuel

/-- Function `count_inputs` from benchmark.py: `len(messages) // 2`. -/
def count_inputs (messages : List Token) : ℕ := messages.length / 2

/-- Function `count_resets` from benchmark.py: `messages.count("RESET")`. -/
def count_resets (messages : List Token) : ℕ := messages.count "RESET"

/-- The number of `send` calls recorded in an event list. -/
def countSendEvents (evs : List ConnEvent) : ℕ :=
  (evs.filter (fun e => match e with | .send _ _ => true | _ => false)).length

/-- The number of `reset` calls recorded in an event list. -/
def countResetEvents (evs : List ConnEvent) : ℕ :=
  (evs.filter (fun e => match e with | .reset => true | _ => false)).length

deriving instance DecidableEq for Except

/-! ### Basic lemmas about the tree operations -/

theorem lookupModels_eq_of_mem : ∀ {l : List (TreePath × Finset ℕ)} {p : TreePath}
    {ms : Finset ℕ}, (l.map Prod.fst).Nodup → (p, ms) ∈ l → lookupModels l p = ms
  | [], _, _, _, h => absurd h (List.not_mem_nil _)
  | pm :: rest, p, ms, hnd, h => by
    rw [List.map_cons, List.nodup_cons] at hnd
    rcases List.mem_cons.mp h with h1 | h1
    · rw [← h1]; simp [lookupModels]
    · have hne : pm.1 ≠ p := by
        intro he
        exact hnd.1 (he ▸ List.mem_map_of_mem Prod.fst h1)
      rw [lookupModels, if_neg hne]
      exact lookupModels_eq_of_mem hnd.2 h1

theorem mem_keys_iff {t : ModelTree} {p : TreePath} :
    p ∈ t.keys ↔ ∃ ms, (p, ms) ∈ t.nodes := by
  constructor
  · intro h
    rcases List.mem_map.mp h with ⟨pm, hpm, he⟩
    refine ⟨pm.2, ?_⟩
    rw [← he]
    exact hpm
  · rintro ⟨ms, h⟩
    exact List.mem_map.mpr ⟨(p, ms), h, rfl⟩

theorem mem_children_iff {t : ModelTree} {p q : TreePath} :
    q ∈ t.children p ↔ q ∈ t.keys ∧ q ≠ [] ∧ q.dropLast = p := by
  simp [ModelTree.children, List.mem_filter, isChildPath, and_assoc]

theorem mem_leaves_iff {t : ModelTree} {p : TreePath} :
    p ∈ t.leaves ↔ p ∈ t.keys ∧ t.children p = [] := by
  simp [ModelTree.leaves, List.mem_filter, ModelTree.isLeaf]

theorem mem_prune_nodes {t : ModelTree} {R : Finset ℕ} {pm : TreePath × Finset ℕ} :
    pm ∈ (t.prune_models R).nodes ↔
      (∃ ms, (pm.1, ms) ∈ t.nodes ∧ pm.2 = ms \ R) ∧ pm.2 ≠ ∅ := by
  unfold ModelTree.prune_models
  rw [List.mem_filter]
  simp only [List.mem_map, decide_eq_true_eq]
  constructor
  · rintro ⟨⟨⟨q, msq⟩, hmem, he⟩, hne⟩
    refine ⟨⟨msq, ?_, ?_⟩, hne⟩
    · have : q = pm.1 := by rw [← he]
      rwa [this] at hmem
    · rw [← he]
  · rintro ⟨⟨ms, hmem, he⟩, hne⟩
    exact ⟨⟨(pm.1, ms), hmem, by rw [← he]⟩, hne⟩

theorem keys_prune_sublist (t : ModelTree) (R : Finset ℕ) :
    ((t.prune_models R).keys).Sublist t.keys := by
  unfold ModelTree.prune_models ModelTree.keys
  have h1 := (List.filter_sublist (l := t.nodes.map (fun pm => (pm.1, pm.2 \ R)))
    (p := fun pm => decide (pm.2 ≠ ∅))).map Prod.fst
  rwa [List.map_map, show Prod.fst ∘ (fun pm : TreePath × Finset ℕ => (pm.1, pm.2 \ R))
    = Prod.fst from rfl] at h1

theorem condenseStep_nodes_sublist (t : ModelTree) :
    ((condenseStep t).nodes).Sublist t.nodes :=
  List.filter_sublist _

theorem condenseAux_nodes_sublist :
    ∀ (n : ℕ) (t : ModelTree), ((condenseAux n t).nodes).Sublist t.nodes
  | 0, _ => List.Sublist.refl _
  | n + 1, t => by
    simp only [condenseAux]
    split
    · exact List.Sublist.refl _
    · exact (condenseAux_nodes_sublist n _).trans (condenseStep_nodes_sublist t)

theorem condense_nodes_sublist (t : ModelTree) :
    ((t.condense).nodes).Sublist t.nodes :=
  condenseAux_nodes_sublist t.size t

theorem condenseAux_no_condensible :
    ∀ (n : ℕ) (t : ModelTree), t.size ≤ n →
      ∀ p ∈ (condenseAux n t).keys, condensibleNode (condenseAux n t) p = false
  | 0, t, h, p, hp => by
    have hnil : t.nodes = [] := List.length_eq_zero.mp (Nat.le_zero.mp h)
    rw [condenseAux] at hp
    simp [ModelTree.keys, hnil] at hp
  | n + 1, t, h, p, hp => by
    by_cases hs : (condenseStep t).size = t.size
    · simp only [condenseAux, hs, if_true] at hp ⊢
      have hall : ∀ pm ∈ t.nodes, (!condensibleNode t pm.1) = true :=
        List.filter_length_eq_length.mp hs
      rcases mem_keys_iff.mp hp with ⟨ms, hms⟩
      have := hall (p, ms) hms
      simpa using this
    · simp only [condenseAux, hs, if_false] at hp ⊢
      have hlt : (condenseStep t).size ≤ n := by
        have hle : (condenseStep t).size ≤ t.size := List.length_filter_le _ _
        omega
      exact condenseAux_no_condensible n (condenseStep t) hlt p hp

theorem condense_no_condensible (t : ModelTree) :
    ∀ p ∈ (t.condense).keys, condensibleNode (t.condense) p = false :=
  condenseAux_no_condensible t.size t (Nat.le_refl _)

/-! ### Well-formedness of a learned model tree (modelled from the spec §3) -/

/-- Every node's stored candidate set is contained in the tree's candidate
set; this is the root instance of the spec invariant "`models(node)` = union
of `models(leaf)` over leaves reachable from `node`". -/
def nodeModelsSub (t : ModelTree) : Prop := ∀ pm ∈ t.nodes, pm.2 ⊆ t.models

/-- Sibling response branches of one input node (a node at odd depth) carry
disjoint candidate sets: a model is a deterministic behavioral signature, so
it answers a given input with exactly one response. -/
def respDisjoint (t : ModelTree) : Prop :=
  ∀ pm1 ∈ t.nodes, ∀ pm2 ∈ t.nodes,
    pm1.1 ≠ [] → pm2.1 ≠ [] → pm1.1.dropLast = pm2.1.dropLast →
    pm1.1.dropLast.length % 2 = 1 → pm1.1 ≠ pm2.1 → pm1.2 ∩ pm2.2 = ∅

theorem mem_roundTree_nodes {t : ModelTree} {lk : TreePath}
    {pm : TreePath × Finset ℕ} (h : pm ∈ (identifyRoundTree t lk).nodes) :
    (∃ ms, (pm.1, ms) ∈ t.nodes ∧ pm.2 = ms \ (t.models \ t.nodeModels lk)) ∧
      pm.2 ≠ ∅ :=
  mem_prune_nodes.mp ((condense_nodes_sublist _).subset h)

theorem roundTree_nodeModels_subset {t : ModelTree} {lk : TreePath}
    {pm : TreePath × Finset ℕ} (hW1 : nodeModelsSub t)
    (h : pm ∈ (identifyRoundTree t lk).nodes) : pm.2 ⊆ t.nodeModels lk := by
  rcases mem_roundTree_nodes h with ⟨⟨ms, hms, he⟩, _⟩
  intro x hx
  rw [he, Finset.mem_sdiff, Finset.mem_sdiff] at hx
  rcases hx with ⟨hxms, hnot⟩
  by_contra hxlk
  exact hnot ⟨hW1 (pm.1, ms) hms hxms, hxlk⟩

theorem roundTree_keys_nodup {t : ModelTree} {lk : TreePath}
    (h : t.keys.Nodup) : (identifyRoundTree t lk).keys.Nodup := by
  have h1 : ((identifyRoundTree t lk).keys).Sublist
      ((t.prune_models (t.models \ t.nodeModels lk)).keys) :=
    (condense_nodes_sublist _).map Prod.fst
  exact (h1.trans (keys_prune_sublist t _)).nodup h

theorem exists_ne_of_one_lt_length :
    ∀ {l : List TreePath} {a : TreePath}, l.Nodup → 1 < l.length → ∃ b ∈ l, b ≠ a
  | [], _, _, hlen => absurd hlen (by simp)
  | [_], _, _, hlen => absurd hlen (by simp)
  | x :: y :: rest, a, hnd, _ => by
    by_cases hx : x = a
    · refine ⟨y, List.mem_cons_of_mem x (List.mem_cons_self y rest), ?_⟩
      intro he
      rw [List.nodup_cons] at hnd
      exact hnd.1 (by rw [hx, ← he]; exact List.mem_cons_self y rest)
    · exact ⟨x, List.mem_cons_self x _, hx⟩

/-- Claim C1: Strict shrink of the candidate set across identification rounds:
if the round at leaf `lk` does not terminate (the pruned-and-condensed tree
is non-empty), then every leaf of the next round's tree — in particular the
one recorded at round k+1 — carries a candidate set that is a strict subset
of (and strictly smaller than) the set recorded at round k. -/
theorem identifyRound_strict_shrink (t : ModelTree) (lk ℓ : TreePath)
    (hnodup : t.keys.Nodup) (hW1 : nodeModelsSub t) (hW3 : respDisjoint t)
    (hlk : lk ∈ t.leaves) (hne : (identifyRoundTree t lk).size ≠ 0)
    (hl : ℓ ∈ (identifyRoundTree t lk).leaves) :
    (identifyRoundTree t lk).nodeModels ℓ ⊂ t.nodeModels lk ∧
      ((identifyRoundTree t lk).nodeModels ℓ).card < (t.nodeModels lk).card := by
  rcases mem_leaves_iff.mp hl with ⟨hkey, hchl⟩
  have hcond : condensibleNode (identifyRoundTree t lk) ℓ = false :=
    condense_no_condensible (t.prune_models (t.models \ t.nodeModels lk)) ℓ hkey
  rw [condensibleNode] at hcond
  simp only [ModelTree.isLeaf, hchl, decide_eq_true_eq, Bool.and_eq_false_iff,
    Bool.or_eq_false_iff, decide_eq_false_iff_not, beq_eq_false_iff_ne] at hcond
  have hcond2 : ¬ℓ = [] ∧ ¬ℓ.length % 2 = 1 ∧
      ¬((identifyRoundTree t lk).children ℓ.dropLast).length = 1 := by
    rcases hcond with h | h
    · exact absurd trivial h
    · exact ⟨h.1.1, h.1.2, h.2⟩
  rcases hcond2 with ⟨hne0, hpar, hnone⟩
  have hmemc : ℓ ∈ (identifyRoundTree t lk).children ℓ.dropLast :=
    mem_children_iff.mpr ⟨hkey, hne0, rfl⟩
  have hlen2 : 1 < ((identifyRoundTree t lk).children ℓ.dropLast).length := by
    have := List.length_pos_of_mem hmemc
    omega
  have hnd2 : (identifyRoundTree t lk).keys.Nodup := roundTree_keys_nodup hnodup
  have hndc : ((identifyRoundTree t lk).children ℓ.dropLast).Nodup :=
    hnd2.filter _
  rcases exists_ne_of_one_lt_length (a := ℓ) hndc hlen2 with ⟨s, hs, hsne⟩
  rcases mem_children_iff.mp hs with ⟨hskey, hsne0, hsdrop⟩
  rcases mem_keys_iff.mp hkey with ⟨msl, hmsl⟩
  rcases mem_keys_iff.mp hskey with ⟨mss, hmss⟩
  have hlookl : (identifyRoundTree t lk).nodeModels ℓ = msl :=
    lookupModels_eq_of_mem hnd2 hmsl
  rcases mem_roundTree_nodes hmsl with ⟨⟨msl0, hmsl0, hel⟩, _⟩
  rcases mem_roundTree_nodes hmss with ⟨⟨mss0, hmss0, hes⟩, hsnemp⟩
  have hel2 : msl = msl0 \ (t.models \ t.nodeModels lk) := hel
  have hes2 : mss = mss0 \ (t.models \ t.nodeModels lk) := hes
  have hmssne : mss ≠ ∅ := hsnemp
  have hdisj : msl0 ∩ mss0 = ∅ := by
    refine hW3 (ℓ, msl0) hmsl0 (s, mss0) hmss0 hne0 hsne0 hsdrop.symm ?_ (Ne.symm hsne)
    show ℓ.dropLast.length % 2 = 1
    have h1 : ℓ.dropLast.length = ℓ.length - 1 := List.length_dropLast ℓ
    have h2 : ℓ.length ≠ 0 := fun h => hne0 (List.length_eq_zero.mp h)
    omega
  rcases Finset.nonempty_iff_ne_empty.mpr hmssne with ⟨m, hm⟩
  have hmLk : m ∈ t.nodeModels lk :=
    roundTree_nodeModels_subset hW1 hmss hm
  have hmnl : m ∉ (identifyRoundTree t lk).nodeModels ℓ := by
    rw [hlookl, hel2]
    intro hcontra
    have h1 : m ∈ msl0 := (Finset.mem_sdiff.mp hcontra).1
    have h2 : m ∈ mss0 := by
      rw [hes2] at hm
      exact (Finset.mem_sdiff.mp hm).1
    have hint : m ∈ msl0 ∩ mss0 := Finset.mem_inter.mpr ⟨h1, h2⟩
    rw [hdisj] at hint
    exact absurd hint (Finset.not_mem_empty m)
  have hsub : (identifyRoundTree t lk).nodeModels ℓ ⊆ t.nodeModels lk := by
    rw [hlookl]
    exact roundTree_nodeModels_subset hW1 hmsl
  have hss : (identifyRoundTree t lk).nodeModels ℓ ⊂ t.nodeModels lk :=
    (Finset.ssubset_iff_of_subset hsub).mpr ⟨m, hmLk, hmnl⟩
  exact ⟨hss, Finset.card_lt_card hss⟩

/-- A small well-formed learned tree over models 1, 2, 3: input "A" separates
models 1 and 2 from model 3, input "B" separates all three. -/
def treeA : ModelTree :=
  ⟨[([], {1, 2, 3}), (["A"], {1, 2, 3}), (["A", "0"], {1, 2}), (["A", "1"], {3}),
    (["B"], {1, 2, 3}), (["B", "0"], {1}), (["B", "1"], {2}), (["B", "2"], {3})],
   fun _ => [("impl", "1")]⟩

/-- Witness for C1: on `treeA`, after a first round that reached the leaf
["A", "0"] (candidates 1 and 2), the loop does not terminate and every leaf
of the next tree carries a strict subset of those candidates. -/
theorem identifyRound_strict_shrink_witness :
    treeA.keys.Nodup ∧ nodeModelsSub treeA ∧ respDisjoint treeA ∧
    ["A", "0"] ∈ treeA.leaves ∧ (identifyRoundTree treeA ["A", "0"]).size ≠ 0 ∧
    ["B", "0"] ∈ (identifyRoundTree treeA ["A", "0"]).leaves ∧
    (identifyRoundTree treeA ["A", "0"]).nodeModels ["B", "0"]
      ⊂ treeA.nodeModels ["A", "0"] := by
  refine ⟨by decide, by unfold nodeModelsSub; decide, by unfold respDisjoint; decide,
    by decide, by decide, by decide, ?_⟩
  exact (identifyRound_strict_shrink treeA ["A", "0"] ["B", "0"] (by decide)
    (by unfold nodeModelsSub; decide) (by unfold respDisjoint; decide)
    (by decide) (by decide) (by decide)).1

/-! ### C3: the Gini tie-break picks a smallest subtree -/

theorem argminFirst_mem {α : Type} (f : α → ℕ) :
    ∀ (b : α) (l : List α), argminFirst f b l ∈ b :: l
  | _, [] => List.mem_cons_self _ _
  | b, x :: xs => by
    rw [argminFirst]
    split
    · exact List.mem_cons_of_mem b (argminFirst_mem f x xs)
    · rcases List.mem_cons.mp (argminFirst_mem f b xs) with h | h
      · exact List.mem_cons.mpr (Or.inl h)
      · exact List.mem_cons_of_mem b (List.mem_cons_of_mem x h)

theorem argminFirst_le_best {α : Type} (f : α → ℕ) :
    ∀ (l : List α) (b : α), f (argminFirst f b l) ≤ f b
  | [], b => Nat.le_refl _
  | x :: xs, b => by
    rw [argminFirst]
    split
    · have h1 := argminFirst_le_best f xs x
      omega
    · exact argminFirst_le_best f xs b

theorem argminFirst_le_mem {α : Type} (f : α → ℕ) :
    ∀ (l : List α) (b : α), ∀ x ∈ l, f (argminFirst f b l) ≤ f x
  | [], _, _, hx => absurd hx (List.not_mem_nil _)
  | y :: ys, b, x, hx => by
    rw [argminFirst]
    rcases List.mem_cons.mp hx with h | h
    · subst h
      split
      · exact argminFirst_le_best f ys x
      · have h1 := argminFirst_le_best f ys b
        omega
    · split
      · exact argminFirst_le_mem f ys y x h
      · exact argminFirst_le_mem f ys b x h

theorem argminFirst_le {α : Type} (f : α → ℕ) (b : α) (l : List α) :
    ∀ x ∈ b :: l, f (argminFirst f b l) ≤ f x := by
  intro x hx
  rcases List.mem_cons.mp hx with h | h
  · subst h
    exact argminFirst_le_best f l x
  · exact argminFirst_le_mem f l b x h

/-- Claim C3: When two or more candidate input edges attain the maximal Gini
impurity, `gini_selector` returns one of those maximal-impurity candidates,
and its subtree has the fewest total nodes among all of them. -/
theorem gini_selector_tie_break (tree : ModelTree) (cur : TreePath) (wf : WeightFn)
    (imps : List (TreePath × ℚ)) (M : ℚ)
    (hcur : cur ∈ tree.keys)
    (hok : gini_impurities tree cur wf = .ok imps)
    (hmax : (imps.map Prod.snd).max? = some M)
    (htwo : 1 < ((imps.filter (fun pv => pv.2 = M)).map Prod.fst).length) :
    ∃ sel, gini_selector tree cur wf = .ok sel ∧
      sel ∈ (imps.filter (fun pv => pv.2 = M)).map Prod.fst ∧
      ∀ c ∈ (imps.filter (fun pv => pv.2 = M)).map Prod.fst,
        (tree.subtree sel).size ≤ (tree.subtree c).size := by
  rcases hc : (imps.filter (fun pv => pv.2 = M)).map Prod.fst with _ | ⟨c1, _ | ⟨c2, rest⟩⟩
  · rw [hc] at htwo
    exact absurd htwo (by simp)
  · rw [hc] at htwo
    exact absurd htwo (by simp)
  · refine ⟨argminFirst (fun p => (tree.subtree p).size) c1 (c2 :: rest), ?_, ?_, ?_⟩
    · rw [gini_selector, if_pos hcur, hok]
      simp only [hmax, hc]
    · rw [hc]
      exact argminFirst_mem _ c1 (c2 :: rest)
    · rw [hc]
      exact argminFirst_le (fun p => (tree.subtree p).size) c1 (c2 :: rest)

/-- A tree realizing a Gini impurity tie: inputs "A" and "B" both split the
weight as 2 + 2 (impurity 1/2), but the subtree below "B" has 6 nodes while
the subtree below "A" has 3. -/
def treeTie : ModelTree :=
  ⟨[([], {1, 2, 3, 4}), (["A"], {1, 2, 3, 4}), (["A", "0"], {1, 2}),
    (["A", "1"], {3, 4}), (["B"], {1, 2, 3, 4}), (["B", "0"], {1, 2}),
    (["B", "0", "C"], {1, 2}), (["B", "0", "C", "0"], {1}),
    (["B", "0", "C", "1"], {2}), (["B", "1"], {3, 4})],
   fun _ => [("impl", "1")]⟩

/-- The Gini impurity table of `treeTie` at the root: both inputs tie at
impurity 1/2. -/
theorem treeTie_impurities :
    gini_impurities treeTie [] model_weight_equal
      = .ok [(["A"], (1 : ℚ)/2), (["B"], (1 : ℚ)/2)] := by
  have hch : treeTie.children [] = [["A"], ["B"]] := by decide
  have hbA : branch_weights treeTie model_weight_equal ["A"] = [2, 2] := by
    have hc : treeTie.children ["A"] = [["A", "0"], ["A", "1"]] := by decide
    have h1 : (treeTie.subtree ["A", "0"]).models = {1, 2} := by decide
    have h2 : (treeTie.subtree ["A", "1"]).models = {3, 4} := by decide
    rw [branch_weights, hc]
    simp [tree_weight, h1, h2, model_weight_equal]
  have hbB : branch_weights treeTie model_weight_equal ["B"] = [2, 2] := by
    have hc : treeTie.children ["B"] = [["B", "0"], ["B", "1"]] := by decide
    have h1 : (treeTie.subtree ["B", "0"]).models = {1, 2} := by decide
    have h2 : (treeTie.subtree ["B", "1"]).models = {3, 4} := by decide
    rw [branch_weights, hc]
    simp [tree_weight, h1, h2, model_weight_equal]
  have hw0 : tree_weight (treeTie.subtree []) model_weight_equal = 4 := by
    have hm0 : (treeTie.subtree []).models = {1, 2, 3, 4} := by decide
    rw [tree_weight, hm0]
    simp [model_weight_equal]
  have hiA : gini_impurity_of 4 [2, 2] = .ok ((1 : ℚ)/2) := by
    rw [gini_impurity_of, if_neg (by norm_num)]
    norm_num
  rw [gini_impurities]
  simp only [hw0, hch, List.mapM_cons, List.mapM_nil, hbA, hbB, hiA]
  rfl

/-- Witness for C3: on `treeTie` inputs "A" and "B" tie at impurity 1/2,
more than one candidate attains the maximum, and the selector returns a
maximal candidate of smallest subtree size. -/
theorem gini_selector_tie_break_witness :
    ∃ sel, gini_selector treeTie [] model_weight_equal = .ok sel ∧
      sel ∈ (([(["A"], (1 : ℚ)/2), (["B"], (1 : ℚ)/2)].filter
        (fun pv => pv.2 = (1 : ℚ)/2)).map Prod.fst) ∧
      ∀ c ∈ (([(["A"], (1 : ℚ)/2), (["B"], (1 : ℚ)/2)].filter
        (fun pv => pv.2 = (1 : ℚ)/2)).map Prod.fst),
        (treeTie.subtree sel).size ≤ (treeTie.subtree c).size :=
  gini_selector_tie_break treeTie [] model_weight_equal
    [(["A"], (1 : ℚ)/2), (["B"], (1 : ℚ)/2)] ((1 : ℚ)/2)
    (by decide) treeTie_impurities (by simp [List.max?]) (by norm_num [List.filter])

/-! ### C4: zero total weight -/

/-- A tree whose model mapping assigns the empty implementation set to every
model, so that `model_weight_count` gives total weight zero. -/
def treeZero : ModelTree :=
  ⟨[([], {1, 2}), (["A"], {1, 2}), (["A", "0"], {1}), (["A", "1"], {2})],
   fun _ => []⟩

/-- On `treeZero` with the count weight, the total weight is zero. -/
theorem treeZero_total_eval :
    tree_weight (treeZero.subtree []) model_weight_count = 0 := by
  have hm0 : (treeZero.subtree []).models = {1, 2} := by decide
  rw [tree_weight, hm0]
  simp [model_weight_count, treeZero, ModelTree.subtree]

/-- On `treeZero` with the count weight, the Gini selector raises the plain
division-by-zero error. -/
theorem treeZero_gini_eval :
    gini_selector treeZero [] model_weight_count = .error .zeroDivision := by
  have hch : treeZero.children [] = [["A"]] := by decide
  have hcA : treeZero.children ["A"] = [["A", "0"], ["A", "1"]] := by decide
  have hbA : branch_weights treeZero model_weight_count ["A"] ≠ [] := by
    rw [branch_weights, hcA]
    simp
  rw [gini_selector, if_pos (by decide)]
  have hgi : gini_impurities treeZero [] model_weight_count
      = .error .zeroDivision := by
    rw [gini_impurities]
    simp only [treeZero_total_eval, hch, List.mapM_cons]
    rw [gini_impurity_of, if_pos ⟨rfl, hbA⟩]
    rfl
  rw [hgi]

/-- On `treeZero` with the count weight, the entropy selector raises the
plain division-by-zero error. -/
theorem treeZero_entropy_eval :
    entropy_selector treeZero [] model_weight_count = .error .zeroDivision := by
  have hch : treeZero.children [] = [["A"]] := by decide
  have hcA : treeZero.children ["A"] = [["A", "0"], ["A", "1"]] := by decide
  have hbA : branch_weights treeZero model_weight_count ["A"] ≠ [] := by
    rw [branch_weights, hcA]
    simp
  rw [entropy_selector, if_pos (by decide)]
  have hgi : entropy_metrics treeZero [] model_weight_count
      = .error .zeroDivision := by
    rw [entropy_metrics]
    simp only [treeZero_total_eval, hch, List.mapM_cons]
    rw [entropy_metric_of, if_pos ⟨rfl, hbA⟩]
    rfl
  rw [hgi]

/-- Counterexample for C4: with a zero total weight the selectors raise the
plain Python `ZeroDivisionError` from `x / total`; there is no dedicated
degenerate-weighting error anywhere in the source (the error enumeration of
the embedding has no such constructor to return). -/
theorem selectors_zero_total_counterexample :
    tree_weight (treeZero.subtree []) model_weight_count = 0 ∧
    gini_selector treeZero [] model_weight_count = .error .zeroDivision ∧
    entropy_selector treeZero [] model_weight_count = .error .zeroDivision :=
  ⟨treeZero_total_eval, treeZero_gini_eval, treeZero_entropy_eval⟩

/-- Claim C4, amended: When the weight function assigns total weight zero to
the current subtree and some candidate input edge has a response branch, both
selectors raise the (undedicated) division-by-zero error instead of silently
returning a default choice. -/
theorem selectors_zero_total (tree : ModelTree) (cur : TreePath) (wf : WeightFn)
    (hcur : cur ∈ tree.keys)
    (h0 : tree_weight (tree.subtree cur) wf = 0)
    (hbr : ∀ i ∈ tree.children cur, branch_weights tree wf i ≠ []) :
    tree.children cur ≠ [] →
    gini_selector tree cur wf = .error .zeroDivision ∧
    entropy_selector tree cur wf = .error .zeroDivision := by
  intro hne
  rcases hc : tree.children cur with _ | ⟨i, rest⟩
  · exact absurd hc hne
  have hbi : branch_weights tree wf i ≠ [] := by
    refine hbr i ?_
    rw [hc]
    exact List.mem_cons_self i rest
  constructor
  · rw [gini_selector, if_pos hcur]
    have hgi : gini_impurities tree cur wf = .error .zeroDivision := by
      rw [gini_impurities]
      simp only [h0, hc, List.mapM_cons]
      rw [gini_impurity_of, if_pos ⟨rfl, hbi⟩]
      rfl
    rw [hgi]
  · rw [entropy_selector, if_pos hcur]
    have hgi : entropy_metrics tree cur wf = .error .zeroDivision := by
      rw [entropy_metrics]
      simp only [h0, hc, List.mapM_cons]
      rw [entropy_metric_of, if_pos ⟨rfl, hbi⟩]
      rfl
    rw [hgi]

/-- Witness for the amended C4, applying it on `treeZero` with the
count-based weight function and an all-empty implementation mapping. -/
theorem selectors_zero_total_witness :
    gini_selector treeZero [] model_weight_count = .error .zeroDivision ∧
    entropy_selector treeZero [] model_weight_count = .error .zeroDivision := by
  refine selectors_zero_total treeZero [] model_weight_count (by decide) ?_ ?_ (by decide)
  · have hm0 : (treeZero.subtree []).models = {1, 2} := by decide
    rw [tree_weight, hm0]
    simp [model_weight_count, treeZero, ModelTree.subtree]
  · intro i hi
    have hch : treeZero.children [] = [["A"]] := by decide
    rw [hch] at hi
    rcases List.mem_cons.mp hi with h | h
    · subst h
      have hcA : treeZero.children ["A"] = [["A", "0"], ["A", "1"]] := by decide
      rw [branch_weights, hcA]
      simp
    · cases h

/-! ### C5 and C6: exit paths of the identification loop -/

/-- Claim C5: If a descent produces a token path absent from the tree, the
identification attempt ends for good: `identify` records a `close` of the
connector and returns the no-match result, and the recorded events show that
nothing further happens (no internal retry of the descent), for every
remaining fuel. -/
theorem identify_failed_descent {σ : Type} (ops : ConnectorOps σ) (sel : Selector)
    (wf : WeightFn) (benchmark : Bool) (messagesOf : σ → List Token) (fuel : ℕ)
    (tree : ModelTree) (st st2 : σ) (evs evs2 : List ConnEvent)
    (hd : descent ops tree sel wf st evs = (.noPath, st2, evs2)) :
    identifyAux ops sel wf benchmark messagesOf (fuel + 1) tree st evs
      = ⟨.noMatch, evs2 ++ [.close]⟩ := by
  rw [identifyAux, hd]

/-- Claim C6: If the descent reaches a leaf and the pruned-and-condensed tree
is empty, `identify` terminates successfully with the candidate set recorded
at that leaf, closing the connector; in benchmark mode it additionally
returns the full message transcript. -/
theorem identify_success_round {σ : Type} (ops : ConnectorOps σ) (sel : Selector)
    (wf : WeightFn) (benchmark : Bool) (messagesOf : σ → List Token) (fuel : ℕ)
    (tree : ModelTree) (st st2 : σ) (evs evs2 : List ConnEvent) (leaf_node : TreePath)
    (hd : descent ops tree sel wf st evs = (.leaf leaf_node, st2, evs2))
    (hz : (identifyRoundTree tree leaf_node).size = 0) :
    identifyAux ops sel wf benchmark messagesOf (fuel + 1) tree st evs
      = ⟨if benchmark then .successBench (tree.nodeModels leaf_node) (messagesOf st2)
          else .success (tree.nodeModels leaf_node), evs2 ++ [.close]⟩ := by
  rw [identifyAux, hd]
  simp only [hz, if_true]

/-- Witness for C5: identifying the absent model 4 on `treeA` sends "A",
gets no matching branch, and `identify` stops with no-match after closing. -/
theorem identify_failed_descent_witness :
    identifyAux (benchOps 4) always_first_selector model_weight_equal true
      BenchState.messages 5 treeA ⟨[], []⟩ []
      = ⟨.noMatch, [.send "A" none, .close]⟩ :=
  identify_failed_descent (benchOps 4) always_first_selector model_weight_equal true
    BenchState.messages 4 treeA ⟨[], []⟩ ⟨["A"], ["A"]⟩ [] [.send "A" none]
    (by decide)

/-- A tree fully identified in one round: input "A" separates models 1
and 2. -/
def treeB : ModelTree :=
  ⟨[([], {1, 2}), (["A"], {1, 2}), (["A", "0"], {1}), (["A", "1"], {2})],
   fun _ => [("impl", "1")]⟩

/-- Witness for C6: identifying model 1 on `treeB` reaches leaf ["A", "0"],
pruning and condensing empties the tree, and `identify` returns the leaf's
candidate set with the transcript. -/
theorem identify_success_round_witness :
    identifyAux (benchOps 1) always_first_selector model_weight_equal true
      BenchState.messages 5 treeB ⟨[], []⟩ []
      = ⟨if true then .successBench (treeB.nodeModels ["A", "0"])
            (BenchState.messages ⟨["A", "0"], ["A", "0"]⟩)
          else .success (treeB.nodeModels ["A", "0"]),
         [.send "A" (some "0"), .close]⟩ :=
  identify_success_round (benchOps 1) always_first_selector model_weight_equal true
    BenchState.messages 4 treeB ⟨[], []⟩ ⟨["A", "0"], ["A", "0"]⟩ []
    [.send "A" (some "0")] ["A", "0"] (by decide) (by decide)

/-! ### C8 and C10: the simulated connector -/

theorem eq_dropLast_append_getLastD {l : List Token} (h : l ≠ []) :
    l = l.dropLast ++ [l.getLastD ""] := by
  rcases List.eq_nil_or_concat l with h0 | ⟨ys, y, hy⟩
  · exact absurd h0 h
  · rw [hy, List.concat_eq_append, List.dropLast_concat, List.getLastD_concat]

/-- Claim C8: If some response child of the advanced cursor position contains
the target model, `BenchmarkConnector.send` returns the token of the unique
such branch (uniqueness from response-branch disjointness) and advances the
cursor through the input token and that branch; the returned token depends
only on the tree, the target and the cursor, not on the transcript. -/
theorem benchmark_send_advances (tree : ModelTree) (target : ℕ) (st : BenchState)
    (message : Token)
    (hdisj : ∀ c1 ∈ tree.children (st.current_node ++ [message]),
      ∀ c2 ∈ tree.children (st.current_node ++ [message]),
        c1 ≠ c2 → target ∈ (tree.subtree c1).models →
          target ∉ (tree.subtree c2).models)
    (hex : ∃ c ∈ tree.children (st.current_node ++ [message]),
      target ∈ (tree.subtree c).models) :
    ∃ c, c ∈ tree.children (st.current_node ++ [message]) ∧
      target ∈ (tree.subtree c).models ∧
      (∀ c2 ∈ tree.children (st.current_node ++ [message]),
        target ∈ (tree.subtree c2).models → c2 = c) ∧
      BenchmarkConnector.send target tree st message
        = (some (c.getLastD ""),
           ⟨st.messages ++ [message] ++ [c.getLastD ""], c⟩) ∧
      ∀ msgs2 : List Token,
        (BenchmarkConnector.send target tree ⟨msgs2, st.current_node⟩ message).1
          = (BenchmarkConnector.send target tree st message).1 := by
  have hsome : ((tree.children (st.current_node ++ [message])).find?
      (fun neighbor => decide (target ∈ (tree.subtree neighbor).models))).isSome := by
    rcases hex with ⟨c, hc, htc⟩
    exact List.find?_isSome.mpr ⟨c, hc, by simpa using htc⟩
  rcases Option.isSome_iff_exists.mp hsome with ⟨c0, hfind⟩
  have hc0mem : c0 ∈ tree.children (st.current_node ++ [message]) :=
    List.mem_of_find?_eq_some hfind
  have hc0p : target ∈ (tree.subtree c0).models := by
    have := List.find?_some hfind
    simpa using this
  have hc0ne : c0 ≠ [] := (mem_children_iff.mp hc0mem).2.1
  have hc0drop : c0.dropLast = st.current_node ++ [message] :=
    (mem_children_iff.mp hc0mem).2.2
  have hcursor : st.current_node ++ [message] ++ [c0.getLastD ""] = c0 := by
    rw [← hc0drop]
    exact (eq_dropLast_append_getLastD hc0ne).symm
  refine ⟨c0, hc0mem, hc0p, ?_, ?_, ?_⟩
  · intro c2 hc2 ht2
    by_contra hne
    exact hdisj c2 hc2 c0 hc0mem hne ht2 hc0p
  · rw [BenchmarkConnector.send]
    simp only [hfind]
    rw [hcursor]
  · intro msgs2
    rw [BenchmarkConnector.send, BenchmarkConnector.send]
    simp only [hfind]

/-- Witness for C8: on `treeB` with target 1 and empty cursor, sending "A"
advances through the unique branch ["A", "0"] and returns "0". -/
theorem benchmark_send_advances_witness :
    ∃ c, c ∈ treeB.children (([] : TreePath) ++ ["A"]) ∧
      (1 : ℕ) ∈ (treeB.subtree c).models ∧
      (∀ c2 ∈ treeB.children (([] : TreePath) ++ ["A"]),
        (1 : ℕ) ∈ (treeB.subtree c2).models → c2 = c) ∧
      BenchmarkConnector.send 1 treeB ⟨[], []⟩ "A"
        = (some (c.getLastD ""), ⟨[] ++ ["A"] ++ [c.getLastD ""], c⟩) ∧
      ∀ msgs2 : List Token,
        (BenchmarkConnector.send 1 treeB ⟨msgs2, []⟩ "A").1
          = (BenchmarkConnector.send 1 treeB ⟨[], []⟩ "A").1 :=
  benchmark_send_advances treeB 1 ⟨[], []⟩ "A" (by decide) (by decide)

/-- Claim C10: If the target model lies in no response child's subtree at the
advanced cursor position, `BenchmarkConnector.send` returns `none` instead
of raising; the descent then treats the resulting path as absent and
returns the no-path result; and `identify` maps a no-path descent to the
no-match outcome with the connector closed — no exception escapes. -/
theorem benchmark_no_branch_no_match (tree : ModelTree) (target : ℕ) (sel : Selector)
    (wf : WeightFn) (st : BenchState) (send_node : TreePath) (lvs : List TreePath)
    (n : ℕ) (evs : List ConnEvent)
    (hsel : sel tree st.current_node wf = .ok send_node)
    (hnone : ∀ c ∈ tree.children (st.current_node ++ [send_node.getLastD ""]),
      target ∉ (tree.subtree c).models) :
    BenchmarkConnector.send target tree st (send_node.getLastD "")
      = (none, ⟨st.messages ++ [send_node.getLastD ""],
                st.current_node ++ [send_node.getLastD ""]⟩) ∧
    descentAux (benchOps target) tree sel wf lvs (n + 1) st.current_node st evs
      = (.noPath, ⟨st.messages ++ [send_node.getLastD ""],
                   st.current_node ++ [send_node.getLastD ""]⟩,
         evs ++ [.send (send_node.getLastD "") none]) ∧
    ∀ (fuel : ℕ) (st0 : BenchState) (evs0 evs2 : List ConnEvent) (st2 : BenchState),
      descent (benchOps target) tree sel wf st0 evs0 = (.noPath, st2, evs2) →
        identifyAux (benchOps target) sel wf true BenchState.messages (fuel + 1)
            tree st0 evs0
          = ⟨.noMatch, evs2 ++ [.close]⟩ := by
  have hsend : BenchmarkConnector.send target tree st (send_node.getLastD "")
      = (none, ⟨st.messages ++ [send_node.getLastD ""],
                st.current_node ++ [send_node.getLastD ""]⟩) := by
    rw [BenchmarkConnector.send]
    have hn : ((tree.children (st.current_node ++ [send_node.getLastD ""])).find?
        (fun neighbor => decide (target ∈ (tree.subtree neighbor).models))) = none := by
      rw [List.find?_eq_none]
      intro c hc
      simpa using hnone c hc
    simp only [hn]
  refine ⟨hsend, ?_, ?_⟩
  · rw [descentAux, hsel]
    simp only [benchOps, hsend]
  · intro fuel st0 evs0 evs2 st2 hd
    rw [identifyAux, hd]

/-- Witness for C10: identifying the absent model 4 on `treeA`: the first
selected input is "A", no branch below contains 4, send returns `none`, and
`identify` ends with no-match after a close. -/
theorem benchmark_no_branch_no_match_witness :
    BenchmarkConnector.send 4 treeA ⟨[], []⟩ (["A"].getLastD "")
      = (none, ⟨[] ++ [["A"].getLastD ""], [] ++ [["A"].getLastD ""]⟩) ∧
    descentAux (benchOps 4) treeA always_first_selector model_weight_equal
        treeA.leaves (8 + 1) (BenchState.mk [] []).current_node ⟨[], []⟩ []
      = (.noPath, ⟨[] ++ [["A"].getLastD ""], [] ++ [["A"].getLastD ""]⟩,
         [] ++ [.send (["A"].getLastD "") none]) ∧
    ∀ (fuel : ℕ) (st0 : BenchState) (evs0 evs2 : List ConnEvent) (st2 : BenchState),
      descent (benchOps 4) treeA always_first_selector model_weight_equal st0 evs0
          = (.noPath, st2, evs2) →
        identifyAux (benchOps 4) always_first_selector model_weight_equal true
            BenchState.messages (fuel + 1) treeA st0 evs0
          = ⟨.noMatch, evs2 ++ [.close]⟩ :=
  benchmark_no_branch_no_match treeA 4 always_first_selector model_weight_equal
    ⟨[], []⟩ ["A"] treeA.leaves 8 [] (by decide) (by decide)

/-! ### C9: connector close on exit paths -/

/-- A descent only appends `send` events to the trace: it never records a
`close` or `reset` itself. -/
theorem descentAux_events_sends {σ : Type} (ops : ConnectorOps σ) (tree : ModelTree)
    (sel : Selector) (wf : WeightFn) (lvs : List TreePath) :
    ∀ (n : ℕ) (cur : TreePath) (st : σ) (evs : List ConnEvent),
      ∃ tail, (descentAux ops tree sel wf lvs n cur st evs).2.2 = evs ++ tail ∧
        ∀ e ∈ tail, ∃ m r, e = ConnEvent.send m r
  | 0, cur, st, evs => ⟨[], by rw [descentAux]; simp, by simp⟩
  | n + 1, cur, st, evs => by
    rw [descentAux]
    rcases hsel : sel tree cur wf with e | send_node
    · exact ⟨[], by simp, by simp⟩
    · rcases hsend : ops.send tree st (send_node.getLastD "") with ⟨resp, st2⟩
      rcases resp with _ | r
      · simp only [hsend]
        exact ⟨[.send (send_node.getLastD "") none], rfl, by
          intro e he
          rcases List.mem_cons.mp he with h | h
          · exact ⟨_, _, h⟩
          · cases h⟩
      · simp only [hsend]
        by_cases hkey : send_node ++ [r] ∈ tree.keys
        · rw [if_pos hkey]
          by_cases hlf : send_node ++ [r] ∈ lvs
          · rw [if_pos hlf]
            exact ⟨[.send (send_node.getLastD "") (some r)], rfl, by
              intro e he
              rcases List.mem_cons.mp he with h | h
              · exact ⟨_, _, h⟩
              · cases h⟩
          · rw [if_neg hlf]
            rcases descentAux_events_sends ops tree sel wf lvs n (send_node ++ [r]) st2
              (evs ++ [.send (send_node.getLastD "") (some r)]) with ⟨tail, he, hall⟩
            refine ⟨.send (send_node.getLastD "") (some r) :: tail, by
              rw [he, List.append_assoc]
              rfl, ?_⟩
            intro e he2
            rcases List.mem_cons.mp he2 with h | h
            · exact ⟨_, _, h⟩
            · exact hall e h
        · rw [if_neg hkey]
          exact ⟨[.send (send_node.getLastD "") (some r)], rfl, by
            intro e he
            rcases List.mem_cons.mp he with h | h
            · exact ⟨_, _, h⟩
            · cases h⟩

/-- Claim C9, amended: The connector is closed on the no-match exit path and
on the successful-termination exit path of `identify`; but when the descent
propagates an exception (for example a selector division-by-zero), `identify`
returns the error without ever invoking close. -/
theorem identify_close_policy {σ : Type} (ops : ConnectorOps σ) (sel : Selector)
    (wf : WeightFn) (benchmark : Bool) (messagesOf : σ → List Token) :
    (∀ (fuel : ℕ) (tree : ModelTree) (st st2 : σ) (evs2 : List ConnEvent),
      descent ops tree sel wf st [] = (.noPath, st2, evs2) →
        identifyAux ops sel wf benchmark messagesOf (fuel + 1) tree st []
          = ⟨.noMatch, evs2 ++ [.close]⟩) ∧
    (∀ (fuel : ℕ) (tree : ModelTree) (st st2 : σ) (evs2 : List ConnEvent)
        (leaf_node : TreePath),
      descent ops tree sel wf st [] = (.leaf leaf_node, st2, evs2) →
      (identifyRoundTree tree leaf_node).size = 0 →
        identifyAux ops sel wf benchmark messagesOf (fuel + 1) tree st []
          = ⟨if benchmark then .successBench (tree.nodeModels leaf_node) (messagesOf st2)
              else .success (tree.nodeModels leaf_node), evs2 ++ [.close]⟩) ∧
    (∀ (fuel : ℕ) (tree : ModelTree) (st st2 : σ) (evs2 : List ConnEvent) (e : PyErr),
      descent ops tree sel wf st [] = (.failure e, st2, evs2) →
        identifyAux ops sel wf benchmark messagesOf (fuel + 1) tree st []
          = ⟨.failure e, evs2⟩ ∧ ConnEvent.close ∉ evs2) := by
  refine ⟨?_, ?_, ?_⟩
  · intro fuel tree st st2 evs2 hd
    rw [identifyAux, hd]
  · intro fuel tree st st2 evs2 leaf_node hd hz
    rw [identifyAux, hd]
    simp only [hz, if_true]
  · intro fuel tree st st2 evs2 e hd
    constructor
    · rw [identifyAux, hd]
    · rcases descentAux_events_sends ops tree sel wf tree.leaves (tree.size + 1)
        [] st [] with ⟨tail, he, hall⟩
      have : evs2 = tail := by
        have h2 : (descentAux ops tree sel wf tree.leaves (tree.size + 1) [] st []).2.2
            = evs2 := by
          rw [show descentAux ops tree sel wf tree.leaves (tree.size + 1) [] st []
            = descent ops tree sel wf st [] from rfl, hd]
        rw [h2] at he
        simpa using he
      rw [this]
      intro hmem
      rcases hall _ hmem with ⟨m, r, hmr⟩
      cases hmr

/-- The Gini selector's division-by-zero on `treeZero` escapes `identify`
uncaught, with an empty event trace: no close is recorded. -/
theorem treeZero_identify_eval : ∀ fuel : ℕ,
    identifyAux (benchOps 1) gini_selector model_weight_count true
      BenchState.messages (fuel + 1) treeZero ⟨[], []⟩ []
      = ⟨.failure .zeroDivision, []⟩ := by
  intro fuel
  have hd : descent (benchOps 1) treeZero gini_selector model_weight_count
      ⟨[], []⟩ [] = (.failure .zeroDivision, ⟨[], []⟩, []) := by
    rw [descent, descentAux, treeZero_gini_eval]
  rw [identifyAux, hd]

/-- Counterexample for C9: on `treeZero` with the count weight, the Gini
selector raises inside the first descent; `identify` propagates the error
and never closes the connector (the event trace is empty). -/
theorem identify_close_counterexample :
    (identify_benchmark treeZero 1 gini_selector model_weight_count 5).outcome
      = .failure .zeroDivision ∧
    ConnEvent.close ∉
      (identify_benchmark treeZero 1 gini_selector model_weight_count 5).events := by
  have h : identify_benchmark treeZero 1 gini_selector model_weight_count 5
      = ⟨.failure .zeroDivision, []⟩ := by
    rw [identify_benchmark, identify]
    exact treeZero_identify_eval 4
  rw [h]
  exact ⟨rfl, by simp⟩

/-- Witness for the amended C9: the selector-error exit path on `treeZero`
returns the error with no close recorded. -/
theorem identify_close_policy_witness :
    identifyAux (benchOps 1) gini_selector model_weight_count true
        BenchState.messages (4 + 1) treeZero ⟨[], []⟩ []
      = ⟨.failure .zeroDivision, []⟩ ∧ ConnEvent.close ∉ ([] : List ConnEvent) :=
  (identify_close_policy (benchOps 1) gini_selector model_weight_count true
      BenchState.messages).2.2 4 treeZero ⟨[], []⟩ ⟨[], []⟩ [] .zeroDivision
    (by rw [descent, descentAux, treeZero_gini_eval])

/-! ### C7: benchmark metrics -/

/-- The transcript entries that one connector call appends to
`BenchmarkConnector.messages`. -/
def eventMessages : ConnEvent → List Token
  | .send m (some r) => [m, r]
  | .send m none => [m]
  | .reset => ["RESET", ""]
  | .close => []

/-- The transcript corresponding to a whole event list. -/
def msgsOfEvents (evs : List ConnEvent) : List Token :=
  evs.flatMap eventMessages

/-- No send in the trace came back without a response. -/
def noneFree (evs : List ConnEvent) : Prop :=
  ∀ e ∈ evs, ∀ m : Token, e ≠ .send m none

theorem msgsOfEvents_append (evs : List ConnEvent) (e : ConnEvent) :
    msgsOfEvents (evs ++ [e]) = msgsOfEvents evs ++ eventMessages e := by
  rw [msgsOfEvents, msgsOfEvents, List.flatMap_append]
  simp

theorem noneFree_append {evs : List ConnEvent} {e : ConnEvent}
    (h : noneFree evs) (he : ∀ m : Token, e ≠ .send m none) :
    noneFree (evs ++ [e]) := by
  intro x hx m
  rcases List.mem_append.mp hx with h1 | h1
  · exact h x h1 m
  · rcases List.mem_cons.mp h1 with h2 | h2
    · rw [h2]
      exact he m
    · cases h2

/-- The state invariant of a connector whose transcript grows exactly by the
recorded events (`BenchmarkConnector` satisfies it). -/
def TranscriptFaithful (ops : ConnectorOps BenchState) : Prop :=
  (∀ (tr : ModelTree) (st : BenchState) (m : Token),
    ((ops.send tr st m).2).messages
      = st.messages ++ eventMessages (.send m (ops.send tr st m).1)) ∧
  (∀ st : BenchState, (ops.reset st).messages
      = st.messages ++ eventMessages .reset)

theorem benchOps_transcript_faithful (target : ℕ) :
    TranscriptFaithful (benchOps target) := by
  constructor
  · intro tr st m
    show ((BenchmarkConnector.send target tr st m).2).messages
      = st.messages ++ eventMessages (.send m (BenchmarkConnector.send target tr st m).1)
    rw [BenchmarkConnector.send]
    rcases hf : (tr.children (st.current_node ++ [m])).find?
        (fun neighbor => decide (target ∈ (tr.subtree neighbor).models)) with _ | nb
    · simp only [hf]
      simp [eventMessages]
    · simp only [hf]
      simp [eventMessages]
  · intro st
    show (BenchmarkConnector.reset st).messages = _
    rw [BenchmarkConnector.reset]
    simp [eventMessages]

/-- During a descent over a transcript-faithful connector, the connector's
transcript stays equal to the transcript of the recorded events, and a
descent that ends at a leaf records only answered sends. -/
theorem descentAux_transcript {ops : ConnectorOps BenchState}
    (hops : TranscriptFaithful ops) (tree : ModelTree) (sel : Selector)
    (wf : WeightFn) (lvs : List TreePath) :
    ∀ (n : ℕ) (cur : TreePath) (st : BenchState) (evs : List ConnEvent),
      st.messages = msgsOfEvents evs →
      ((descentAux ops tree sel wf lvs n cur st evs).2.1).messages
          = msgsOfEvents ((descentAux ops tree sel wf lvs n cur st evs).2.2) ∧
      (noneFree evs → ∀ p, (descentAux ops tree sel wf lvs n cur st evs).1 = .leaf p →
        noneFree ((descentAux ops tree sel wf lvs n cur st evs).2.2))
  | 0, cur, st, evs, hmsg => by
    rw [descentAux]
    exact ⟨hmsg, fun _ p h => by cases h⟩
  | n + 1, cur, st, evs, hmsg => by
    rw [descentAux]
    rcases hsel : sel tree cur wf with e | send_node
    · exact ⟨hmsg, fun _ p h => by cases h⟩
    · rcases hsend : ops.send tree st (send_node.getLastD "") with ⟨resp, st2⟩
      have hst2 : st2.messages
          = msgsOfEvents (evs ++ [.send (send_node.getLastD "") resp]) := by
        have h1 := hops.1 tree st (send_node.getLastD "")
        rw [hsend] at h1
        rw [msgsOfEvents_append, ← hmsg]
        exact h1
      rcases resp with _ | r
      · simp only [hsend]
        exact ⟨hst2, fun _ p h => by cases h⟩
      · simp only [hsend]
        by_cases hkey : send_node ++ [r] ∈ tree.keys
        · rw [if_pos hkey]
          by_cases hlf : send_node ++ [r] ∈ lvs
          · rw [if_pos hlf]
            refine ⟨hst2, ?_⟩
            intro hnf p _
            exact noneFree_append hnf (fun m h => by cases h)
          · rw [if_neg hlf]
            have ih := descentAux_transcript hops tree sel wf lvs n (send_node ++ [r])
              st2 (evs ++ [.send (send_node.getLastD "") (some r)]) hst2
            refine ⟨ih.1, ?_⟩
            intro hnf p hp
            exact ih.2 (noneFree_append hnf (fun m h => by cases h)) p hp
        · rw [if_neg hkey]
          exact ⟨hst2, fun _ p h => by cases h⟩

/-- Through the identification loop over a transcript-faithful connector, a
benchmark-mode success returns exactly the transcript of the recorded
events, and every recorded send was answered. -/
theorem identifyAux_transcript {ops : ConnectorOps BenchState}
    (hops : TranscriptFaithful ops) (sel : Selector) (wf : WeightFn) :
    ∀ (fuel : ℕ) (tree : ModelTree) (st : BenchState) (evs : List ConnEvent),
      st.messages = msgsOfEvents evs → noneFree evs →
      ∀ (lm : Finset ℕ) (msgs : List Token),
        (identifyAux ops sel wf true BenchState.messages fuel tree st evs).outcome
          = .successBench lm msgs →
        msgs = msgsOfEvents
            ((identifyAux ops sel wf true BenchState.messages fuel tree st evs).events) ∧
        noneFree ((identifyAux ops sel wf true BenchState.messages fuel tree st evs).events)
  | 0, tree, st, evs, hmsg, hnf, lm, msgs => by
    rw [identifyAux]
    intro h
    cases h
  | fuel + 1, tree, st, evs, hmsg, hnf, lm, msgs => by
    rw [identifyAux]
    rcases hd : descent ops tree sel wf st evs with ⟨res, st2, evs2⟩
    have htr := descentAux_transcript hops tree sel wf tree.leaves
      (tree.size + 1) [] st evs hmsg
    rw [show descentAux ops tree sel wf tree.leaves (tree.size + 1) [] st evs
      = descent ops tree sel wf st evs from rfl, hd] at htr
    rcases res with p | _ | e | _
    · simp only [hd]
      by_cases hz : (identifyRoundTree tree p).size = 0
      · rw [if_pos hz]
        intro h
        have hmsgs : msgs = st2.messages := by
          cases h
          rfl
        have hnf2 : noneFree evs2 := htr.2 hnf p rfl
        constructor
        · rw [hmsgs, msgsOfEvents_append]
          show st2.messages = msgsOfEvents evs2 ++ []
          rw [List.append_nil]
          exact htr.1
        · exact noneFree_append hnf2 (fun m hc => by cases hc)
      · rw [if_neg hz]
        exact identifyAux_transcript hops sel wf fuel (identifyRoundTree tree p)
          (ops.reset st2) (evs2 ++ [.reset]) (by
            rw [msgsOfEvents_append, ← htr.1]
            exact hops.2 st2)
          (noneFree_append (htr.2 hnf p rfl) (fun m hc => by cases hc)) lm msgs
    · simp only [hd]
      intro h
      cases h
    · simp only [hd]
      intro h
      cases h
    · simp only [hd]
      intro h
      cases h

theorem countSendEvents_cons (e : ConnEvent) (evs : List ConnEvent) :
    countSendEvents (e :: evs)
      = countSendEvents evs + (match e with | .send _ _ => 1 | _ => 0) := by
  rw [countSendEvents, countSendEvents, List.filter_cons]
  rcases e with ⟨m, r⟩ | _ | _ <;> simp [Nat.add_comm]

theorem countResetEvents_cons (e : ConnEvent) (evs : List ConnEvent) :
    countResetEvents (e :: evs)
      = countResetEvents evs + (match e with | .reset => 1 | _ => 0) := by
  rw [countResetEvents, countResetEvents, List.filter_cons]
  rcases e with ⟨m, r⟩ | _ | _ <;> simp [Nat.add_comm]

/-- With every send answered, the transcript holds exactly two entries per
send and two per reset. -/
theorem msgsOfEvents_length :
    ∀ evs : List ConnEvent, noneFree evs →
      (msgsOfEvents evs).length
        = 2 * (countSendEvents evs + countResetEvents evs)
  | [], _ => rfl
  | e :: evs, h => by
    have hrest : noneFree evs := fun x hx => h x (List.mem_cons_of_mem e hx)
    have ih := msgsOfEvents_length evs hrest
    rw [msgsOfEvents] at ih ⊢
    rw [List.flatMap_cons, List.length_append, ih,
      countSendEvents_cons, countResetEvents_cons]
    rcases e with ⟨m, _ | r⟩ | _ | _
    · exact absurd rfl (h (.send m none) (List.mem_cons_self _ _) m)
    · simp [eventMessages]
      ring
    · simp [eventMessages]
      ring
    · simp [eventMessages]

/-- When no exchanged token is the reset sentinel, counting "RESET" in the
transcript counts exactly the reset calls. -/
theorem msgsOfEvents_reset_count :
    ∀ evs : List ConnEvent,
      (∀ e ∈ evs, ∀ (m : Token) (resp : Option Token),
        e = .send m resp → m ≠ "RESET" ∧ resp ≠ some "RESET") →
      (msgsOfEvents evs).count "RESET" = countResetEvents evs
  | [], _ => rfl
  | e :: evs, h => by
    have hrest := fun x hx => h x (List.mem_cons_of_mem e hx)
    have ih := msgsOfEvents_reset_count evs hrest
    rw [msgsOfEvents] at ih ⊢
    rw [List.flatMap_cons, List.count_append, ih, countResetEvents_cons]
    rcases e with ⟨m, _ | r⟩ | _ | _
    · have hm := (h (.send m none) (List.mem_cons_self _ _) m none rfl).1
      simp [eventMessages, List.count_cons, hm]
    · have hm := (h (.send m (some r)) (List.mem_cons_self _ _) m (some r) rfl).1
      have hr : r ≠ "RESET" := by
        intro hc
        exact (h (.send m (some r)) (List.mem_cons_self _ _) m (some r) rfl).2
          (by rw [hc])
      simp [eventMessages, List.count_cons, hm, hr]
    · simp [eventMessages, List.count_cons]
      omega
    · simp [eventMessages]

/-- A send event whose tokens avoid the reset sentinel. -/
def sendNotReset : ConnEvent → Bool
  | .send m resp => decide (m ≠ "RESET" ∧ resp ≠ some "RESET")
  | _ => true

/-- Claim C7, amended: In a benchmark run that terminates successfully, the
`inputs` metric (`len(messages) // 2`) equals the number of send calls PLUS
the number of reset calls (each reset contributes a sentinel pair to the
transcript), and the `resets` metric counts exactly the reset calls provided
no exchanged protocol token equals the sentinel "RESET". -/
theorem benchmark_metrics (tree : ModelTree) (target : ℕ) (sel : Selector)
    (wf : WeightFn) (fuel : ℕ) (lm : Finset ℕ) (msgs : List Token)
    (hout : (identify_benchmark tree target sel wf fuel).outcome
      = .successBench lm msgs) :
    count_inputs msgs
      = countSendEvents (identify_benchmark tree target sel wf fuel).events
        + countResetEvents (identify_benchmark tree target sel wf fuel).events ∧
    ((∀ e ∈ (identify_benchmark tree target sel wf fuel).events,
        sendNotReset e = true) →
      count_resets msgs
        = countResetEvents (identify_benchmark tree target sel wf fuel).events) := by
  have htr := identifyAux_transcript (benchOps_transcript_faithful target) sel wf
    fuel tree ⟨[], []⟩ [] rfl (fun e he => absurd he (List.not_mem_nil e)) lm msgs
  rw [show identifyAux (benchOps target) sel wf true BenchState.messages fuel tree
    ⟨[], []⟩ [] = identify_benchmark tree target sel wf fuel from rfl] at htr
  rcases htr hout with ⟨hmsgs, hnf⟩
  constructor
  · rw [count_inputs, hmsgs, msgsOfEvents_length _ hnf]
    omega
  · intro hnever
    rw [count_resets, hmsgs, msgsOfEvents_reset_count]
    intro e he m resp heq
    have h1 := hnever e he
    rw [heq] at h1
    simpa [sendNotReset] using h1

set_option maxHeartbeats 1000000 in
/-- Counterexample for C7: identifying model 1 on `treeA` uses two rounds
with one reset; the transcript is [A, 0, RESET, "", B, 0], so the `inputs`
metric is 3 although only two input tokens were sent via `send`. -/
theorem count_inputs_counterexample :
    identify_benchmark treeA 1 always_first_selector model_weight_equal 5
      = ⟨.successBench {1} ["A", "0", "RESET", "", "B", "0"],
         [.send "A" (some "0"), .reset, .send "B" (some "0"), .close]⟩ ∧
    count_inputs ["A", "0", "RESET", "", "B", "0"] = 3 ∧
    countSendEvents
      [.send "A" (some "0"), .reset, .send "B" (some "0"), .close] = 2 ∧
    countResetEvents
      [.send "A" (some "0"), .reset, .send "B" (some "0"), .close] = 1 := by
  refine ⟨by decide, by decide, by decide, by decide⟩

set_option maxHeartbeats 1000000 in
/-- Witness for the amended C7 on the same two-round run: 3 = 2 sends + 1
reset, and the `resets` metric counts the single reset. -/
theorem benchmark_metrics_witness :
    count_inputs ["A", "0", "RESET", "", "B", "0"]
      = countSendEvents (identify_benchmark treeA 1 always_first_selector
          model_weight_equal 5).events
        + countResetEvents (identify_benchmark treeA 1 always_first_selector
          model_weight_equal 5).events ∧
    count_resets ["A", "0", "RESET", "", "B", "0"]
      = countResetEvents (identify_benchmark treeA 1 always_first_selector
          model_weight_equal 5).events := by
  have h := benchmark_metrics treeA 1 always_first_selector model_weight_equal 5
    {1} ["A", "0", "RESET", "", "B", "0"] (by decide)
  exact ⟨h.1, h.2 (by decide)⟩

/-! ### C2: Gini versus entropy selection -/

theorem argmaxFirstR_mem :
    ∀ (L : List (TreePath × ℝ)) (b : TreePath × ℝ), argmaxFirstR b L ∈ b :: L
  | [], _ => List.mem_cons_self _ _
  | x :: xs, b => by
    rw [argmaxFirstR]
    split
    · exact List.mem_cons_of_mem b (argmaxFirstR_mem xs x)
    · rcases List.mem_cons.mp (argmaxFirstR_mem xs b) with h | h
      · exact List.mem_cons.mpr (Or.inl h)
      · exact List.mem_cons_of_mem b (List.mem_cons_of_mem x h)

theorem argmaxFirstR_ge_best :
    ∀ (L : List (TreePath × ℝ)) (b : TreePath × ℝ), b.2 ≤ (argmaxFirstR b L).2
  | [], _ => le_refl _
  | x :: xs, b => by
    rw [argmaxFirstR]
    split
    · rename_i h
      exact le_of_lt (lt_of_lt_of_le h (argmaxFirstR_ge_best xs x))
    · exact argmaxFirstR_ge_best xs b

theorem argmaxFirstR_ge :
    ∀ (L : List (TreePath × ℝ)) (b : TreePath × ℝ), ∀ x ∈ b :: L,
      x.2 ≤ (argmaxFirstR b L).2
  | [], b, x, hx => by
    rcases List.mem_cons.mp hx with h | h
    · rw [h, argmaxFirstR]
    · cases h
  | y :: ys, b, x, hx => by
    rw [argmaxFirstR]
    rcases List.mem_cons.mp hx with h | h
    · subst h
      split
      · rename_i hlt
        exact le_of_lt (lt_of_lt_of_le hlt (argmaxFirstR_ge_best ys y))
      · exact argmaxFirstR_ge_best ys x
    · rcases List.mem_cons.mp h with h2 | h2
      · subst h2
        split
        · exact argmaxFirstR_ge_best ys x
        · rename_i hnlt
          exact le_trans (le_of_not_lt hnlt) (argmaxFirstR_ge_best ys b)
      · split
        · exact argmaxFirstR_ge ys y x (List.mem_cons_of_mem y h2)
        · exact argmaxFirstR_ge ys b x (List.mem_cons_of_mem b h2)

/-- A finite list of edges with pairwise distinct metric values has a strict
argmax. -/
theorem exists_strict_argmax (f : TreePath → ℚ) :
    ∀ l : List TreePath, l ≠ [] → l.Nodup →
      (∀ i ∈ l, ∀ j ∈ l, i ≠ j → f i ≠ f j) →
      ∃ c ∈ l, ∀ x ∈ l, x ≠ c → f x < f c
  | [], hne, _, _ => absurd rfl hne
  | [x], _, _, _ => ⟨x, List.mem_cons_self _ _, by
      intro y hy hne
      rcases List.mem_cons.mp hy with h | h
      · exact absurd h hne
      · cases h⟩
  | x :: y :: l, _, hnodup, hdist => by
    have hsub : ∃ c ∈ y :: l, ∀ z ∈ y :: l, z ≠ c → f z < f c := by
      refine exists_strict_argmax f (y :: l) (by simp) (List.Nodup.of_cons hnodup) ?_
      intro i hi j hj hij
      exact hdist i (List.mem_cons_of_mem x hi) j (List.mem_cons_of_mem x hj) hij
    rcases hsub with ⟨c, hc, hdom⟩
    have hxc : x ≠ c := by
      intro he
      rw [List.nodup_cons] at hnodup
      exact hnodup.1 (he ▸ hc)
    have hne2 : f x ≠ f c :=
      hdist x (List.mem_cons_self _ _) c (List.mem_cons_of_mem x hc) hxc
    rcases lt_or_gt_of_ne hne2 with hlt | hgt
    · refine ⟨c, List.mem_cons_of_mem x hc, ?_⟩
      intro z hz hzc
      rcases List.mem_cons.mp hz with h | h
      · rw [h]; exact hlt
      · exact hdom z h hzc
    · refine ⟨x, List.mem_cons_self _ _, ?_⟩
      intro z hz hzx
      rcases List.mem_cons.mp hz with h | h
      · exact absurd h hzx
      · by_cases hzc : z = c
        · rw [hzc]; exact hgt
        · exact lt_trans (hdom z h hzc) hgt

/-- Mapping with `mapM` over `Except` succeeds pointwise. -/
theorem mapM_ok {α β : Type} (g : α → β) (f : α → Except PyErr β) :
    ∀ l : List α, (∀ i ∈ l, f i = .ok (g i)) → l.mapM f = .ok (l.map g)
  | [], _ => rfl
  | x :: l, h => by
    rw [List.mapM_cons, h x (List.mem_cons_self _ _),
      mapM_ok g f l (fun i hi => h i (List.mem_cons_of_mem x hi))]
    rfl

/-- The maximum over the metric column of the table is the strict argmax's
value. -/
theorem max?_of_strict_argmax (f : TreePath → ℚ) (l : List TreePath) (c : TreePath)
    (hc : c ∈ l) (hdom : ∀ x ∈ l, x ≠ c → f x < f c) :
    ((l.map (fun i => (i, f i))).map Prod.snd).max? = some (f c) := by
  rw [List.map_map, show (Prod.snd ∘ fun i => (i, f i)) = f from rfl]
  rcases hm : (l.map f).max? with _ | M
  · rw [List.max?_eq_none_iff] at hm
    rw [List.map_eq_nil_iff] at hm
    rw [hm] at hc
    cases hc
  · have hmem : M ∈ l.map f := List.max?_mem (fun a b => max_choice a b) hm
    have hle : ∀ a ∈ l.map f, a ≤ M :=
      (List.max?_le_iff (fun a b c => max_le_iff) hm).1 (le_refl M)
    rcases List.mem_map.mp hmem with ⟨d, hd, hdM⟩
    by_cases hdc : d = c
    · rw [hdc] at hdM
      rw [hdM]
    · have h1 : f d < f c := hdom d hd hdc
      have h2 : f c ≤ M := hle (f c) (List.mem_map_of_mem f hc)
      rw [← hdM] at h2
      exact absurd h1 (not_lt_of_le h2)

/-- With pairwise-distinct metrics, filtering the table at the maximal value
keeps exactly the argmax row. -/
theorem filter_of_strict_argmax (f : TreePath → ℚ) :
    ∀ (l : List TreePath) (c : TreePath), l.Nodup → c ∈ l →
      (∀ x ∈ l, x ≠ c → f x < f c) →
      (l.map (fun i => (i, f i))).filter (fun pv => pv.2 = f c) = [(c, f c)]
  | [], c, _, hc, _ => absurd hc (List.not_mem_nil c)
  | x :: l, c, hnodup, hc, hdom => by
    rw [List.map_cons, List.filter_cons]
    by_cases hxc : x = c
    · have hpos : (decide ((x, f x).2 = f c)) = true := by
        simp only [decide_eq_true_eq]
        rw [hxc]
      rw [if_pos hpos]
      have hrest : (l.map (fun i => (i, f i))).filter
          (fun pv => decide (pv.2 = f c)) = [] := by
        rw [List.filter_eq_nil_iff]
        intro pv hpv
        rcases List.mem_map.mp hpv with ⟨i, hi, hie⟩
        have hic : i ≠ c := by
          intro he
          rw [List.nodup_cons] at hnodup
          rw [← hxc] at he
          exact hnodup.1 (he ▸ hi)
        have hlt := hdom i (List.mem_cons_of_mem x hi) hic
        rw [← hie]
        simp only [decide_eq_true_eq]
        exact ne_of_lt hlt
      rw [hrest, hxc]
    · have hcl : c ∈ l := by
        rcases List.mem_cons.mp hc with h | h
        · exact absurd h.symm hxc
        · exact h
      have hlt : f x < f c := hdom x (List.mem_cons_self _ _) hxc
      rw [if_neg (by simp only [decide_eq_true_eq]; exact ne_of_lt hlt)]
      exact filter_of_strict_argmax f l c (List.Nodup.of_cons hnodup) hcl
        (fun z hz hzc => hdom z (List.mem_cons_of_mem x hz) hzc)

/-- Strictly larger Gini impurity of a binary split forces strictly larger
binary entropy: both metrics rank binary splits identically. -/
theorem binEntropy_lt_of_gini_lt (x y : ℝ) (hx0 : 0 < x) (hx1 : x < 1)
    (hy0 : 0 < y) (hy1 : y < 1) (h : 2 * x * (1 - x) < 2 * y * (1 - y)) :
    Real.binEntropy x < Real.binEntropy y := by
  set a := min x (1 - x) with ha
  set b := min y (1 - y) with hb
  have hax : Real.binEntropy x = Real.binEntropy a := by
    rcases min_cases x (1 - x) with ⟨he, _⟩ | ⟨he, _⟩
    · rw [ha, he]
    · rw [ha, he, Real.binEntropy_one_sub]
  have hby : Real.binEntropy y = Real.binEntropy b := by
    rcases min_cases y (1 - y) with ⟨he, _⟩ | ⟨he, _⟩
    · rw [hb, he]
    · rw [hb, he, Real.binEntropy_one_sub]
  have hprod_a : a * (1 - a) = x * (1 - x) := by
    rcases min_cases x (1 - x) with ⟨he, _⟩ | ⟨he, _⟩
    · rw [ha, he]
    · rw [ha, he]; ring
  have hprod_b : b * (1 - b) = y * (1 - y) := by
    rcases min_cases y (1 - y) with ⟨he, _⟩ | ⟨he, _⟩
    · rw [hb, he]
    · rw [hb, he]; ring
  have ha0 : 0 ≤ a := le_min (le_of_lt hx0) (by linarith)
  have hb0 : 0 ≤ b := le_min (le_of_lt hy0) (by linarith)
  have ha2 : a ≤ 2⁻¹ := by
    rcases min_cases x (1 - x) with ⟨he, hle⟩ | ⟨he, hle⟩ <;> rw [ha, he] <;> linarith
  have hb2 : b ≤ 2⁻¹ := by
    rcases min_cases y (1 - y) with ⟨he, hle⟩ | ⟨he, hle⟩ <;> rw [hb, he] <;> linarith
  have hab : a < b := by
    have hprod : a * (1 - a) < b * (1 - b) := by
      rw [hprod_a, hprod_b]; linarith
    by_contra hnot
    push_neg at hnot
    nlinarith [mul_nonneg (sub_nonneg.mpr hnot) (by linarith : (0:ℝ) ≤ 1 - a - b)]
  calc Real.binEntropy x = Real.binEntropy a := hax
    _ < Real.binEntropy b := Real.binEntropy_strictMonoOn
        (Set.mem_Icc.mpr ⟨ha0, ha2⟩) (Set.mem_Icc.mpr ⟨hb0, hb2⟩) hab
    _ = Real.binEntropy y := hby.symm

/-- The Gini impurity computed for a binary response split of weights
`w` and `T - w`, exactly as `gini_selector` computes it. -/
def giniBinaryValue (w T : ℚ) : ℚ :=
  1 - ((w / T) ^ 2 + (((T - w) / T) ^ 2 + 0))

/-- The entropy metric computed for a binary response split of weights
`w` and `T - w`, exactly as `entropy_selector` computes it. -/
noncomputable def entropyBinaryValue (w T : ℚ) : ℝ :=
  -1 * (((w / T : ℚ) : ℝ) * Real.log ((w / T : ℚ) : ℝ)
    + (((((T - w) / T : ℚ)) : ℝ) * Real.log (((T - w) / T : ℚ) : ℝ) + 0))

/-- Claim C2, amended: On a node whose candidate input edges each have exactly
two response branches with positive weights summing to the node's subtree
total, and whose Gini impurities are pairwise distinct, the Gini selector and
the entropy selector return the same input edge. -/
theorem gini_entropy_binary_agreement (tree : ModelTree) (cur : TreePath)
    (wf : WeightFn) (w : TreePath → ℚ) (T : ℚ)
    (hcur : cur ∈ tree.keys) (hnodup : tree.keys.Nodup)
    (hT : tree_weight (tree.subtree cur) wf = T)
    (hne : tree.children cur ≠ [])
    (hbin : ∀ i ∈ tree.children cur,
      branch_weights tree wf i = [w i, T - w i] ∧ 0 < w i ∧ w i < T)
    (hnotie : ∀ i ∈ tree.children cur, ∀ j ∈ tree.children cur, i ≠ j →
      2 * (w i / T) * (1 - w i / T) ≠ 2 * (w j / T) * (1 - w j / T)) :
    ∃ c, gini_selector tree cur wf = .ok c ∧
      entropy_selector tree cur wf = .ok c := by
  have hT0 : 0 < T := by
    rcases hc0 : tree.children cur with _ | ⟨i0, r0⟩
    · exact absurd hc0 hne
    · have h1 := hbin i0 (hc0 ▸ List.mem_cons_self i0 r0)
      linarith [h1.2.1, h1.2.2]
  have hTne : T ≠ 0 := ne_of_gt hT0
  have hgm2 : ∀ i ∈ tree.children cur,
      giniBinaryValue (w i) T = 2 * (w i / T) * (1 - w i / T) := by
    intro i _
    rw [giniBinaryValue]
    field_simp
    ring
  have hgini : gini_impurities tree cur wf
      = .ok ((tree.children cur).map (fun i => (i, giniBinaryValue (w i) T))) := by
    show (tree.children cur).mapM (fun i =>
      (gini_impurity_of (tree_weight (tree.subtree cur) wf)
        (branch_weights tree wf i)).map (fun v => (i, v))) = _
    rw [hT]
    refine mapM_ok _ _ _ ?_
    intro i hi
    rw [(hbin i hi).1, gini_impurity_of, if_neg (fun hcon => hTne hcon.1)]
    rfl
  have hent : entropy_metrics tree cur wf
      = .ok ((tree.children cur).map (fun i => (i, entropyBinaryValue (w i) T))) := by
    show (tree.children cur).mapM (fun i =>
      (entropy_metric_of (tree_weight (tree.subtree cur) wf)
        (branch_weights tree wf i)).map (fun v => (i, v))) = _
    rw [hT]
    refine mapM_ok _ _ _ ?_
    intro i hi
    have hpos1 : 0 < w i / T := div_pos (hbin i hi).2.1 hT0
    have hpos2 : 0 < (T - w i) / T :=
      div_pos (by linarith [(hbin i hi).2.2]) hT0
    rw [(hbin i hi).1, entropy_metric_of, if_neg (fun hcon => hTne hcon.1),
      if_neg (by
        rintro ⟨x, hx, hle⟩
        rcases List.mem_cons.mp hx with h | h
        · rw [h] at hle
          linarith
        · rcases List.mem_cons.mp h with h2 | h2
          · rw [h2] at hle
            linarith
          · cases h2)]
    rfl
  have hem : ∀ i ∈ tree.children cur,
      entropyBinaryValue (w i) T = Real.binEntropy ((w i / T : ℚ) : ℝ) := by
    intro i _
    have hQ : ((T - w i) / T : ℚ) = 1 - w i / T := by
      field_simp
    rw [entropyBinaryValue, hQ,
      Real.binEntropy_eq_negMulLog_add_negMulLog_one_sub,
      Real.negMulLog, Real.negMulLog]
    push_cast
    ring
  have hldup : (tree.children cur).Nodup := hnodup.filter _
  have hdist : ∀ i ∈ tree.children cur, ∀ j ∈ tree.children cur,
      i ≠ j → giniBinaryValue (w i) T ≠ giniBinaryValue (w j) T := by
    intro i hi j hj hij
    rw [hgm2 i hi, hgm2 j hj]
    exact hnotie i hi j hj hij
  rcases exists_strict_argmax (fun i => giniBinaryValue (w i) T)
    (tree.children cur) hne hldup hdist with ⟨c, hc, hdom⟩
  have hedom : ∀ x ∈ tree.children cur, x ≠ c →
      entropyBinaryValue (w x) T < entropyBinaryValue (w c) T := by
    intro x hx hxc
    have hq1 : (0:ℚ) < w x / T := div_pos (hbin x hx).2.1 hT0
    have hq2 : w x / T < 1 := (div_lt_one hT0).mpr (hbin x hx).2.2
    have hq3 : (0:ℚ) < w c / T := div_pos (hbin c hc).2.1 hT0
    have hq4 : w c / T < 1 := (div_lt_one hT0).mpr (hbin c hc).2.2
    have hglt : giniBinaryValue (w x) T < giniBinaryValue (w c) T := hdom x hx hxc
    rw [hgm2 x hx, hgm2 c hc] at hglt
    rw [hem x hx, hem c hc]
    refine binEntropy_lt_of_gini_lt _ _ ?_ ?_ ?_ ?_ ?_
    · exact_mod_cast hq1
    · exact_mod_cast hq2
    · exact_mod_cast hq3
    · exact_mod_cast hq4
    · exact_mod_cast hglt
  have hginisel : gini_selector tree cur wf = .ok c := by
    rw [gini_selector, if_pos hcur, hgini]
    have hmax := max?_of_strict_argmax (fun i => giniBinaryValue (w i) T)
      (tree.children cur) c hc hdom
    have hfil := filter_of_strict_argmax (fun i => giniBinaryValue (w i) T)
      (tree.children cur) c hldup hc hdom
    simp only [hmax, hfil, List.map_cons, List.map_nil]
  have hentsel : entropy_selector tree cur wf = .ok c := by
    rw [entropy_selector, if_pos hcur, hent]
    rcases hlm : (tree.children cur).map
        (fun i => (i, entropyBinaryValue (w i) T)) with _ | ⟨b, L⟩
    · rw [List.map_eq_nil_iff] at hlm
      exact absurd hlm hne
    · simp only [hlm]
      have hy := argmaxFirstR_mem L b
      rw [← hlm] at hy
      rcases List.mem_map.mp hy with ⟨d, hd, hde⟩
      have hcmem : (c, entropyBinaryValue (w c) T) ∈ b :: L := by
        rw [← hlm]
        exact List.mem_map_of_mem _ hc
      have hge := argmaxFirstR_ge L b _ hcmem
      by_cases hdc : d = c
      · rw [← hde, hdc]
      · have hlt := hedom d hd hdc
        rw [← hde] at hge
        exact absurd hlt (not_lt_of_le hge)
  exact ⟨c, hginisel, hentsel⟩

/-- A binary-split tree with distinct impurities: "A" splits 2+2 (impurity
1/2), "B" splits 3+1 (impurity 3/8). -/
def treeBin : ModelTree :=
  ⟨[([], {1, 2, 3, 4}), (["A"], {1, 2, 3, 4}), (["A", "0"], {1, 2}),
    (["A", "1"], {3, 4}), (["B"], {1, 2, 3, 4}), (["B", "0"], {1, 2, 3}),
    (["B", "1"], {4})], fun _ => [("impl", "1")]⟩

/-- The branch-weight function of `treeBin` at the root. -/
def wBin : TreePath → ℚ := fun i => if i = ["A"] then 2 else 3

/-- Witness for the amended C2: on `treeBin` both selectors return the same
edge. -/
theorem gini_entropy_binary_agreement_witness :
    ∃ c, gini_selector treeBin [] model_weight_equal = .ok c ∧
      entropy_selector treeBin [] model_weight_equal = .ok c := by
  have hch : treeBin.children [] = [["A"], ["B"]] := by decide
  have hwbA : wBin ["A"] = 2 := by decide
  have hwbB : wBin ["B"] = 3 := by decide
  have hwA : tree_weight (treeBin.subtree ["A", "0"]) model_weight_equal = 2 := by
    have hm : (treeBin.subtree ["A", "0"]).models = {1, 2} := by decide
    rw [tree_weight, hm]
    simp [model_weight_equal]
  have hwA1 : tree_weight (treeBin.subtree ["A", "1"]) model_weight_equal = 2 := by
    have hm : (treeBin.subtree ["A", "1"]).models = {3, 4} := by decide
    rw [tree_weight, hm]
    simp [model_weight_equal]
  have hwB : tree_weight (treeBin.subtree ["B", "0"]) model_weight_equal = 3 := by
    have hm : (treeBin.subtree ["B", "0"]).models = {1, 2, 3} := by decide
    rw [tree_weight, hm]
    simp [model_weight_equal]
  have hwB1 : tree_weight (treeBin.subtree ["B", "1"]) model_weight_equal = 1 := by
    have hm : (treeBin.subtree ["B", "1"]).models = {4} := by decide
    rw [tree_weight, hm]
    simp [model_weight_equal]
  refine gini_entropy_binary_agreement treeBin [] model_weight_equal wBin 4
    (by decide) (by decide) ?_ (by decide) ?_ ?_
  · have hm : (treeBin.subtree []).models = {1, 2, 3, 4} := by decide
    rw [tree_weight, hm]
    simp [model_weight_equal]
  · intro i hi
    rw [hch] at hi
    rcases List.mem_cons.mp hi with h | h
    · subst h
      have hcA : treeBin.children ["A"] = [["A", "0"], ["A", "1"]] := by decide
      refine ⟨?_, by norm_num [hwbA, hwbB], by norm_num [hwbA, hwbB]⟩
      rw [branch_weights, hcA]
      simp only [List.map_cons, List.map_nil, hwA, hwA1]
      norm_num [hwbA, hwbB]
    · rcases List.mem_cons.mp h with h2 | h2
      · subst h2
        have hcB : treeBin.children ["B"] = [["B", "0"], ["B", "1"]] := by decide
        refine ⟨?_, by norm_num [hwbA, hwbB], by norm_num [hwbA, hwbB]⟩
        rw [branch_weights, hcB]
        simp only [List.map_cons, List.map_nil, hwB, hwB1]
        norm_num [hwbA, hwbB]
      · cases h2
  · intro i hi j hj hij
    rw [hch] at hi hj
    rcases List.mem_cons.mp hi with h | h
    · rcases List.mem_cons.mp hj with g | g
      · rw [h, g] at hij
        exact absurd rfl hij
      · rcases List.mem_cons.mp g with g2 | g2
        · subst h
          subst g2
          norm_num [hwbA, hwbB]
        · cases g2
    · rcases List.mem_cons.mp h with h2 | h2
      · subst h2
        rcases List.mem_cons.mp hj with g | g
        · subst g
          norm_num [hwbA, hwbB]
        · rcases List.mem_cons.mp g with g2 | g2
          · rw [g2] at hij
            exact absurd rfl hij
          · cases g2
      · cases h2

/-- A tree on which Gini and entropy disagree: with equal model weights,
input "A" splits 4 + 4 (Gini 1/2, entropy log 2) while input "B" splits
6 + 1 + 1 (Gini 13/32, entropy (9/4)log 2 - (3/4)log 3 which exceeds
log 2). -/
def treeEnt : ModelTree :=
  ⟨[([], {1, 2, 3, 4, 5, 6, 7, 8}), (["A"], {1, 2, 3, 4, 5, 6, 7, 8}),
    (["A", "0"], {1, 2, 3, 4}), (["A", "1"], {5, 6, 7, 8}),
    (["B"], {1, 2, 3, 4, 5, 6, 7, 8}),
    (["B", "0"], {1, 2, 3, 4, 5, 6}), (["B", "1"], {7}), (["B", "2"], {8})],
   fun _ => [("impl", "1")]⟩

theorem treeEnt_total :
    tree_weight (treeEnt.subtree []) model_weight_equal = 8 := by
  have hm : (treeEnt.subtree []).models = {1, 2, 3, 4, 5, 6, 7, 8} := by decide
  rw [tree_weight, hm]
  simp [model_weight_equal]

theorem treeEnt_branchA :
    branch_weights treeEnt model_weight_equal ["A"] = [4, 4] := by
  have hc : treeEnt.children ["A"] = [["A", "0"], ["A", "1"]] := by decide
  have h1 : (treeEnt.subtree ["A", "0"]).models = {1, 2, 3, 4} := by decide
  have h2 : (treeEnt.subtree ["A", "1"]).models = {5, 6, 7, 8} := by decide
  rw [branch_weights, hc]
  simp [tree_weight, h1, h2, model_weight_equal]

theorem treeEnt_branchB :
    branch_weights treeEnt model_weight_equal ["B"] = [6, 1, 1] := by
  have hc : treeEnt.children ["B"] = [["B", "0"], ["B", "1"], ["B", "2"]] := by decide
  have h1 : (treeEnt.subtree ["B", "0"]).models = {1, 2, 3, 4, 5, 6} := by decide
  have h2 : (treeEnt.subtree ["B", "1"]).models = {7} := by decide
  have h3 : (treeEnt.subtree ["B", "2"]).models = {8} := by decide
  rw [branch_weights, hc]
  simp [tree_weight, h1, h2, h3, model_weight_equal]

theorem treeEnt_gini_impurities :
    gini_impurities treeEnt [] model_weight_equal
      = .ok [(["A"], (1 : ℚ)/2), (["B"], (13 : ℚ)/32)] := by
  have hch : treeEnt.children [] = [["A"], ["B"]] := by decide
  have hiA : gini_impurity_of 8 [4, 4] = .ok ((1 : ℚ)/2) := by
    rw [gini_impurity_of, if_neg (by norm_num)]
    norm_num
  have hiB : gini_impurity_of 8 [6, 1, 1] = .ok ((13 : ℚ)/32) := by
    rw [gini_impurity_of, if_neg (by norm_num)]
    norm_num
  rw [gini_impurities]
  simp only [treeEnt_total, hch, List.mapM_cons, List.mapM_nil,
    treeEnt_branchA, treeEnt_branchB, hiA, hiB]
  rfl

theorem treeEnt_gini_selector :
    gini_selector treeEnt [] model_weight_equal = .ok ["A"] := by
  rw [gini_selector, if_pos (by decide), treeEnt_gini_impurities]
  have hmax : ([(1 : ℚ)/2, (13 : ℚ)/32].max?) = some ((1 : ℚ)/2) := by
    show some (List.foldl max ((1 : ℚ)/2) [(13 : ℚ)/32]) = some ((1 : ℚ)/2)
    rw [List.foldl, List.foldl, max_eq_left (by norm_num)]
  have hfil : ([(["A"], (1 : ℚ)/2), (["B"], (13 : ℚ)/32)].filter
      (fun pv => pv.2 = (1 : ℚ)/2)) = [(["A"], (1 : ℚ)/2)] := by
    rw [List.filter_cons, List.filter_cons]
    rw [if_pos (by norm_num), if_neg (by norm_num)]
    rfl
  simp only [hmax, hfil, List.map_cons, List.map_nil]

theorem treeEnt_entropyA : entropy_metric_of 8 [4, 4] = .ok (Real.log 2) := by
  rw [entropy_metric_of, if_neg (by norm_num), if_neg (by norm_num)]
  have hc : (((4 : ℚ)/8 : ℚ) : ℝ) = 2⁻¹ := by norm_num
  congr 1
  show -1 * ((((4 : ℚ)/8 : ℚ) : ℝ) * Real.log (((4 : ℚ)/8 : ℚ) : ℝ)
    + ((((4 : ℚ)/8 : ℚ) : ℝ) * Real.log (((4 : ℚ)/8 : ℚ) : ℝ) + 0)) = Real.log 2
  rw [hc, Real.log_inv]
  ring

theorem treeEnt_entropyB : entropy_metric_of 8 [6, 1, 1]
    = .ok ((9/4) * Real.log 2 - (3/4) * Real.log 3) := by
  rw [entropy_metric_of, if_neg (by norm_num), if_neg (by norm_num)]
  have hc1 : (((6 : ℚ)/8 : ℚ) : ℝ) = 3/4 := by norm_num
  have hc2 : (((1 : ℚ)/8 : ℚ) : ℝ) = 1/8 := by norm_num
  have hl1 : Real.log ((3 : ℝ)/4) = Real.log 3 - 2 * Real.log 2 := by
    rw [Real.log_div (by norm_num) (by norm_num),
      show (4 : ℝ) = 2 ^ 2 by norm_num, Real.log_pow]
    norm_num
  have hl2 : Real.log ((1 : ℝ)/8) = -(3 * Real.log 2) := by
    rw [Real.log_div (by norm_num) (by norm_num), Real.log_one,
      show (8 : ℝ) = 2 ^ 3 by norm_num, Real.log_pow]
    norm_num
  congr 1
  show -1 * ((((6 : ℚ)/8 : ℚ) : ℝ) * Real.log (((6 : ℚ)/8 : ℚ) : ℝ)
    + ((((1 : ℚ)/8 : ℚ) : ℝ) * Real.log (((1 : ℚ)/8 : ℚ) : ℝ)
      + ((((1 : ℚ)/8 : ℚ) : ℝ) * Real.log (((1 : ℚ)/8 : ℚ) : ℝ) + 0)))
    = (9/4) * Real.log 2 - (3/4) * Real.log 3
  rw [hc1, hc2, hl1, hl2]
  ring

theorem treeEnt_entropy_gt :
    Real.log 2 < (9/4) * Real.log 2 - (3/4) * Real.log 3 := by
  have h1 : Real.log 27 < Real.log 32 :=
    Real.log_lt_log (by norm_num) (by norm_num)
  rw [show (32 : ℝ) = 2 ^ 5 by norm_num, show (27 : ℝ) = 3 ^ 3 by norm_num,
    Real.log_pow, Real.log_pow] at h1
  push_cast at h1
  linarith

theorem treeEnt_entropy_selector :
    entropy_selector treeEnt [] model_weight_equal = .ok ["B"] := by
  have hch : treeEnt.children [] = [["A"], ["B"]] := by decide
  have hEm : entropy_metrics treeEnt [] model_weight_equal
      = .ok [(["A"], Real.log 2),
             (["B"], (9/4) * Real.log 2 - (3/4) * Real.log 3)] := by
    rw [entropy_metrics]
    simp only [treeEnt_total, hch, List.mapM_cons, List.mapM_nil,
      treeEnt_branchA, treeEnt_branchB, treeEnt_entropyA, treeEnt_entropyB]
    rfl
  rw [entropy_selector, if_pos (by decide), hEm]
  show Except.ok (argmaxFirstR (["A"], Real.log 2)
    [(["B"], (9/4) * Real.log 2 - (3/4) * Real.log 3)]).1 = Except.ok ["B"]
  rw [argmaxFirstR, if_pos (show ((["B"], (9/4) * Real.log 2 - (3/4) * Real.log 3)
    : TreePath × ℝ).2 > ((["A"], Real.log 2) : TreePath × ℝ).2
    from treeEnt_entropy_gt), argmaxFirstR]

/-- Counterexample for C2: on `treeEnt` the two candidate edges have
distinct Gini impurities (1/2 versus 13/32) and distinct entropy metrics,
yet the Gini selector picks "A" while the entropy selector picks "B". -/
theorem selector_agreement_counterexample :
    gini_impurities treeEnt [] model_weight_equal
      = .ok [(["A"], (1 : ℚ)/2), (["B"], (13 : ℚ)/32)] ∧
    ((1 : ℚ)/2 ≠ (13 : ℚ)/32) ∧
    Real.log 2 ≠ (9/4) * Real.log 2 - (3/4) * Real.log 3 ∧
    gini_selector treeEnt [] model_weight_equal = .ok ["A"] ∧
    entropy_selector treeEnt [] model_weight_equal = .ok ["B"] :=
  ⟨treeEnt_gini_impurities, by norm_num, ne_of_lt treeEnt_entropy_gt,
    treeEnt_gini_selector, treeEnt_entropy_selector⟩
